import Mathlib

/-!
Verification development for the `memory-mcp` shared-memory server.

The Go sources are shallowly embedded: Go strings become `List Char`
(so every operation computes by structural recursion in the kernel),
`time.Time` values become rational seconds since the epoch, and the
`float64` scores become rationals, with `math.Exp` kept abstract as a
function parameter.  The SQLite `memories` table is a `List MemoryRecord`
and each SQL statement is translated to the corresponding list
transformation; SQLite `LIKE '%x%'` is ASCII-case-insensitive
containment, per SQLite's documented default.  External collaborators
(the regexp namespace check, `encoding/json` parsing, the FTS5 bm25
query) enter as explicit parameters, so theorems quantify over them.
-/

namespace MemoryMCP

/-- Go strings, modelled as character lists so they reduce in the kernel. -/
abbrev Str := List Char

instance exceptDecEq {ε α : Type} [DecidableEq ε] [DecidableEq α] :
    DecidableEq (Except ε α)
  | .ok a, .ok b => decidable_of_iff (a = b) (by simp)
  | .ok _, .error _ => isFalse (by simp)
  | .error _, .ok _ => isFalse (by simp)
  | .error a, .error b => decidable_of_iff (a = b) (by simp)

/-- Convenience conversion from Lean string literals. -/
def str (s : String) : Str := s.toList

/-- strings.TrimSpace: drop leading and trailing whitespace. -/
def trimSpace (s : Str) : Str :=
  ((s.dropWhile Char.isWhitespace).reverse.dropWhile Char.isWhitespace).reverse

/-- strings.ToLower (ASCII model of the Unicode case folding). -/
def toLowerStr (s : Str) : Str := s.map Char.toLower

/-- Accumulator for `fieldsOf`: current word (reversed) and finished words. -/
def fieldsAux : Str → Str → List Str → List Str
  | [], cur, acc => if cur = [] then acc else acc ++ [cur.reverse]
  | c :: rest, cur, acc =>
    if c.isWhitespace then
      if cur = [] then fieldsAux rest [] acc
      else fieldsAux rest [] (acc ++ [cur.reverse])
    else fieldsAux rest (c :: cur) acc

/-- strings.Fields: split around runs of whitespace, no empty words. -/
def fieldsOf (s : Str) : List Str := fieldsAux s [] []

/-- substring containment (`strings.Contains` / the payload of a SQL
`LIKE '%needle%'` before case folding). -/
def infixOf (needle : Str) : Str → Bool
  | [] => needle.isEmpty
  | c :: rest => List.isPrefixOf needle (c :: rest) || infixOf needle rest

/-- truncate (internal/memory): cut to `limit` runes, ellipsis when room. -/
def truncate (s : Str) (limit : Nat) : Str :=
  if s.length ≤ limit then s
  else if limit < 3 then s.take limit
  else s.take (limit - 3) ++ str "..."

/-- autoSummary (internal/memory): bounded-length prefix of the content. -/
def autoSummary (content : Str) : Str :=
  let content := trimSpace content
  if content = [] then [] else truncate content 160

/-- normalize (internal/memory): lower-case, trim, collapse whitespace
runs to single spaces, truncate to 180 characters. -/
def normalize (s : Str) : Str :=
  let s := trimSpace (toLowerStr s)
  let s := List.intercalate (str " ") (fieldsOf s)
  truncate s 180

/-- estimateTokens (internal/memory): ceil(runes/4) with a floor of 1. -/
def estimateTokens (s : Str) : Nat :=
  let t := (s.length + 3) / 4
  if t < 1 then 1 else t

/-- recencyScore (internal/memory): clamp to 1 for non-positive elapsed
time, else exp(-days/14).  Time is rational seconds, so
`Sub(..).Hours()/24` is division by 86400; `exp` abstracts `math.Exp`. -/
def recencyScore (exp : ℚ → ℚ) (now t : ℚ) : ℚ :=
  let days := (now - t) / 86400
  if days ≤ 0 then 1 else exp (-days / 14)

/-- pkg/types.MemoryRecord. -/
structure MemoryRecord where
  id : Str
  ns : Str
  scope : Str
  content : Str
  summary : Str
  importance : Int
  sourceAgent : Str
  metadata : List (Str × Str)
  createdAt : ℚ
  lastAccessedAt : ℚ
  expiresAt : Option ℚ
  promotedAt : Option ℚ
deriving DecidableEq

/-- internal/config.Config (the fields the service reads). -/
structure Config where
  defaultShortTTLHours : Int
  maxContextPackItems : Int
  defaultSearchK : Int
deriving DecidableEq

/-- pkg/types.WriteInput. -/
structure WriteInput where
  ns : Str
  scope : Str
  content : Str
  summary : Str
  importance : Int
  sourceAgent : Str
  ttlSeconds : Int
  metadata : List (Str × Str)
deriving DecidableEq

/-- Service.validateNamespace; the compiled namespace regexp enters as
the predicate `nsOK`. -/
def validateNamespace (nsOK : Str → Bool) (ns : Str) : Except Str Unit :=
  let t := trimSpace ns
  if t = [] then .error (str "namespace is required")
  else if nsOK t then .ok ()
  else .error (str "namespace does not match required pattern")

/-- Service.Write (internal/memory).  `now` is the clock reading,
`newId` the fresh uuid; the store's InsertMemory returns its argument
unchanged on success, so the successful write returns this record. -/
def Write (nsOK : Str → Bool) (cfg : Config) (inp : WriteInput) (now : ℚ)
    (newId : Str) : Except Str MemoryRecord :=
  match validateNamespace nsOK inp.ns with
  | .error e => .error e
  | .ok _ =>
    let scope := trimSpace (toLowerStr inp.scope)
    let scope := if scope = [] then str "short" else scope
    if scope ≠ str "short" ∧ scope ≠ str "long" then
      .error (str "invalid scope")
    else if trimSpace inp.content = [] then
      .error (str "content must not be empty")
    else
      let importance := if inp.importance < 1 ∨ 5 < inp.importance then 3 else inp.importance
      let summary := trimSpace inp.summary
      let summary := if summary = [] then autoSummary inp.content else summary
      let expiresAt : Option ℚ :=
        if scope = str "short" then
          let ttl := if inp.ttlSeconds ≤ 0 then cfg.defaultShortTTLHours * 3600 else inp.ttlSeconds
          some (now + ttl)
        else none
      .ok { id := newId, ns := inp.ns, scope := scope, content := inp.content,
            summary := summary, importance := importance,
            sourceAgent := inp.sourceAgent, metadata := inp.metadata,
            createdAt := now, lastAccessedAt := now,
            expiresAt := expiresAt, promotedAt := none }

/-- store.Candidate: a record plus its lexical relevance. -/
structure Candidate where
  record : MemoryRecord
  lexicalScore : ℚ
deriving DecidableEq

/-- pkg/types.SearchResult. -/
structure SearchResult where
  record : MemoryRecord
  score : ℚ
  lexicalScore : ℚ
  recencyScore : ℚ
  importanceScore : ℚ
deriving DecidableEq

/-- pkg/types.SearchInput. -/
structure SearchInput where
  ns : Str
  query : Str
  scope : Str
  k : Int
  includeMetadata : Bool
deriving DecidableEq

/-- The score fusion applied to one candidate (Service.Search loop body). -/
def scoreCandidate (exp : ℚ → ℚ) (now : ℚ) (c : Candidate) : SearchResult :=
  let recency := recencyScore exp now c.record.createdAt
  let importance := (c.record.importance : ℚ) / 5
  { record := c.record
    score := 0.60 * c.lexicalScore + 0.25 * recency + 0.15 * importance
    lexicalScore := c.lexicalScore
    recencyScore := recency
    importanceScore := importance }

/-- Descending-score order used by sort.SliceStable in Service.Search. -/
def scoreGE (a b : SearchResult) : Prop := b.score ≤ a.score

instance : DecidableRel scoreGE := fun a b => inferInstanceAs (Decidable (b.score ≤ a.score))

/-- The K defaulting and hard ceiling of Service.Search (lines 142-147). -/
def clampK (cfg : Config) (k : Int) : Int :=
  let k := if k ≤ 0 then cfg.defaultSearchK else k
  if k > 100 then 100 else k

/-- Service.Search metadata stripping for one result. -/
def stripMetadata (r : SearchResult) : SearchResult :=
  { r with record := { r.record with metadata := [] } }

/-- Service.Search (internal/memory).  The persistence layer enters as
the function `store` (store.SearchCandidates), called exactly as the Go
code calls it: namespace, query, normalized scope, limit `K*3`, now.
sort.SliceStable with a strict greater-than comparator is the unique
stable descending sort, embedded as insertion sort on `scoreGE`. -/
def Search (exp : ℚ → ℚ) (nsOK : Str → Bool) (cfg : Config)
    (store : Str → Str → Str → Int → ℚ → List Candidate)
    (inp : SearchInput) (now : ℚ) : Except Str (List SearchResult) :=
  match validateNamespace nsOK inp.ns with
  | .error e => .error e
  | .ok _ =>
    let scope := trimSpace (toLowerStr inp.scope)
    if scope ≠ [] ∧ scope ≠ str "short" ∧ scope ≠ str "long" then
      .error (str "invalid scope")
    else
      let k := clampK cfg inp.k
      let cands := store inp.ns inp.query scope (k * 3) now
      let results := (cands.map (scoreCandidate exp now)).insertionSort scoreGE
      let results := if (results.length : Int) > k then results.take k.toNat else results
      let results := if inp.includeMetadata then results else results.map stripMetadata
      .ok results

/-- pkg/types.ContextPackInput. -/
structure ContextPackInput where
  ns : Str
  query : Str
  tokenBudget : Int
  scope : Str
  k : Int
deriving DecidableEq

/-- pkg/types.ContextPack. -/
structure ContextPackResult where
  text : Str
  estimatedTokens : Nat
  memoryIDs : List Str
deriving DecidableEq

/-- The display text of one ranked entry in Service.ContextPack:
trimmed summary, or trimmed content when the summary is empty. -/
def displayText (r : MemoryRecord) : Str :=
  let text := trimSpace r.summary
  if text = [] then trimSpace r.content else text

/-- The formatted pack line of Service.ContextPack. -/
def packLineOf (r : MemoryRecord) : Str :=
  str "- [" ++ r.id ++ str "] " ++ truncate (displayText r) 300

/-- The emission loop of Service.ContextPack (lines 213-236): walk the
ranked records, skip empty display texts, skip normalized duplicates,
and stop outright once a line would push past the token budget.
Returns the emitted lines, the emitted ids, and the final token total. -/
def packLines (budget : Int) : List MemoryRecord → List Str → Nat →
    List Str × List Str × Nat
  | [], _, tokens => ([], [], tokens)
  | r :: rest, seen, tokens =>
    let text := displayText r
    if text = [] then packLines budget rest seen tokens
    else
      let norm := normalize text
      if norm ∈ seen then packLines budget rest seen tokens
      else
        let line := packLineOf r
        let lineTokens := estimateTokens line
        if (tokens + lineTokens : Int) > budget then ([], [], tokens)
        else
          let out := packLines budget rest (norm :: seen) (tokens + lineTokens)
          (line :: out.1, r.id :: out.2.1, out.2.2)

/-- The token-budget defaulting of Service.ContextPack (lines 187-189). -/
def defaultBudget (b : Int) : Int := if b ≤ 0 then 512 else b

/-- The K defaulting and ceiling of Service.ContextPack (lines 190-195). -/
def clampPackK (cfg : Config) (k : Int) : Int :=
  let k := if k ≤ 0 then cfg.maxContextPackItems else k
  if k > 50 then 50 else k

/-- Service.ContextPack (internal/memory). -/
def ContextPack (exp : ℚ → ℚ) (nsOK : Str → Bool) (cfg : Config)
    (store : Str → Str → Str → Int → ℚ → List Candidate)
    (inp : ContextPackInput) (now : ℚ) : Except Str ContextPackResult :=
  let budget := defaultBudget inp.tokenBudget
  let k := clampPackK cfg inp.k
  match Search exp nsOK cfg store
      { ns := inp.ns, query := inp.query, scope := inp.scope, k := k,
        includeMetadata := false } now with
  | .error e => .error e
  | .ok results =>
    let out := packLines budget (results.map (·.record)) [] 0
    .ok { text := List.intercalate (str "\n") out.1,
          estimatedTokens := out.2.2, memoryIDs := out.2.1 }

/-- pkg/types.PromoteInput. -/
structure PromoteInput where
  memoryID : Str
  targetScope : Str
  reason : Str
deriving DecidableEq

/-- SQLiteStore.Promote: the UPDATE sets scope, expires_at, promoted_at
and last_accessed_at on every row whose id matches, and reports
sql.ErrNoRows (here `.error ()`) when no row was affected. -/
def storePromote (table : List MemoryRecord) (id : Str) (now : ℚ) :
    Except Unit (List MemoryRecord) :=
  if table.countP (fun r => r.id = id) = 0 then .error ()
  else .ok (table.map (fun r =>
    if r.id = id then
      { r with scope := str "long", expiresAt := none,
               promotedAt := some now, lastAccessedAt := now }
    else r))

/-- SQLiteStore.GetMemory: SELECT ... WHERE id = ? LIMIT 1. -/
def getMemory (table : List MemoryRecord) (id : Str) : Option MemoryRecord :=
  (table.filter (fun r => r.id = id)).head?

/-- Service.Promote (internal/memory), paired with the table it leaves
behind so successive calls can be chained. -/
def Promote (table : List MemoryRecord) (inp : PromoteInput) (now : ℚ) :
    Except Str (MemoryRecord × List MemoryRecord) :=
  if trimSpace inp.memoryID = [] then .error (str "memory_id is required")
  else if (if inp.targetScope = [] then str "long" else inp.targetScope) ≠ str "long" then
    .error (str "only target_scope=long is supported")
  else
      match storePromote table inp.memoryID now with
      | .error _ => .error (str "memory not found")
      | .ok table' =>
        match getMemory table' inp.memoryID with
        | some r => .ok (r, table')
        | none => .error (str "get memory failed")

/-- The sweep's WHERE clause (scope = 'short' AND expires_at IS NOT
NULL AND expires_at <= now) read at the record level, with decoded,
chronologically ordered timestamps; SQLiteStore.expiredWhere below
gives the byte-level TEXT comparison SQLite actually performs. -/
def expiredShort (now : ℚ) (r : MemoryRecord) : Bool :=
  decide (r.scope = str "short") &&
    (match r.expiresAt with
     | none => false
     | some e => decide (e ≤ now))

/-- Record-level view of the expiry sweep, used by the lifecycle
theorems (which need only that the sweep deletes rows and reports the
affected count); the byte-accurate model of the DELETE's comparison is
SQLiteStore.ExpireShort below. -/
def ExpireShort (table : List MemoryRecord) (now : ℚ) :
    List MemoryRecord × Nat :=
  (table.filter (fun r => !expiredShort now r), table.countP (expiredShort now))

/-- Appends a finished token unless it is empty or already seen
(tokenizeQueryTerms keeps first-seen order and drops duplicates). -/
def flushTerm (cur : Str) (terms : List Str) : List Str :=
  if cur = [] then terms
  else if cur ∈ terms then terms
  else terms ++ [cur]

/-- The rune loop of tokenizeQueryTerms: alphanumeric runs are
lower-cased and collected, anything else separates tokens. -/
def tokenizeAux : Str → Str → List Str → List Str
  | [], cur, terms => flushTerm cur terms
  | c :: rest, cur, terms =>
    if c.isAlphanum then tokenizeAux rest (cur ++ [c.toLower]) terms
    else tokenizeAux rest [] (flushTerm cur terms)

/-- store.tokenizeQueryTerms (ASCII model of unicode.IsLetter/IsDigit). -/
def tokenizeQueryTerms (query : Str) : List Str :=
  let query := trimSpace query
  if query = [] then [] else tokenizeAux query [] []

/-- SQLite BINARY-collation `<` on TEXT values: memcmp on the UTF-8
bytes, which on character lists is lexicographic code-point order. -/
def textLt (a b : Str) : Bool := decide (a.map Char.toNat < b.map Char.toNat)

/-- SQLite BINARY-collation `<=` on TEXT values. -/
def textLe (a b : Str) : Bool := decide (a.map Char.toNat ≤ b.map Char.toNat)

/-- One row of the `memories` table as persisted by InsertMemory: every
timestamp column holds the TEXT produced by Go's
`UTC().Format(time.RFC3339Nano)`, kept here as a string because the
SQL layer only ever compares those bytes. -/
structure StoredRow where
  id : Str
  ns : Str
  scope : Str
  content : Str
  summary : Str
  importance : Int
  sourceAgent : Str
  metadataJSON : Str
  createdAt : Str
  lastAccessedAt : Str
  expiresAt : Option Str
  promotedAt : Option Str
deriving DecidableEq

/-- A store-level search candidate: the matched row paired with its
fixed lexical score (store.Candidate before row decoding). -/
structure RowCandidate where
  row : StoredRow
  lexicalScore : ℚ
deriving DecidableEq

/-- Decimal value of a digit string. -/
def digitsToNat (ds : Str) : Nat := ds.foldl (fun acc c => acc * 10 + (c.toNat - 48)) 0

/-- The fractional-second part of an RFC3339Nano string (the digits
after the `.` following the seconds), as a rational in [0, 1). -/
def fracValue (tail : Str) : ℚ :=
  match tail with
  | '.' :: rest =>
    let ds := rest.takeWhile Char.isDigit
    (digitsToNat ds : ℚ) / ((10 : ℚ) ^ ds.length)
  | _ => 0

/-- Chronological order of two UTC RFC3339Nano strings: the fixed-width
19-character date-time prefix compares lexicographically (which is
chronological for fixed-width decimal fields), ties are decided by the
fractional seconds as numbers. -/
def timeLtRFC (a b : Str) : Bool :=
  textLt (a.take 19) (b.take 19)
    || (decide (a.take 19 = b.take 19) && decide (fracValue (a.drop 19) < fracValue (b.drop 19)))

/-- Fractional tail of Go's RFC3339Nano output: one to nine digits
whose last digit is non-zero (Go trims trailing fractional zeros),
then the `Z` zone suffix. -/
def fracTailWF (s : Str) : Bool :=
  decide (s.dropWhile Char.isDigit = ['Z'])
    && decide (1 ≤ (s.takeWhile Char.isDigit).length)
    && decide ((s.takeWhile Char.isDigit).length ≤ 9)
    && (match (s.takeWhile Char.isDigit).getLast? with
        | some d => decide (d ≠ '0')
        | none => false)

/-- Shape of `t.UTC().Format(time.RFC3339Nano)`: `YYYY-MM-DDTHH:MM:SS`,
an optional trimmed fractional part, then `Z`. -/
def rfc3339NanoUTCWF (s : Str) : Bool :=
  match s with
  | y1 :: y2 :: y3 :: y4 :: '-' :: o1 :: o2 :: '-' :: d1 :: d2 :: 'T' ::
      h1 :: h2 :: ':' :: i1 :: i2 :: ':' :: s1 :: s2 :: rest =>
    [y1, y2, y3, y4, o1, o2, d1, d2, h1, h2, i1, i2, s1, s2].all Char.isDigit
      && (match rest with
          | ['Z'] => true
          | '.' :: frac => fracTailWF frac
          | _ => false)
  | _ => false

/-- Tries `f` on the string and on every suffix of it (the `%` wildcard
consumes zero or more characters). -/
def anySuffix (f : Str → Bool) : Str → Bool
  | [] => f []
  | c :: ts => f (c :: ts) || anySuffix f ts

/-- SQL LIKE matching on case-folded input: `%` matches any run, `_`
matches exactly one character, anything else matches itself (the
statements use no ESCAPE clause). -/
def likeAux : Str → Str → Bool
  | [], t => t.isEmpty
  | p :: ps, t =>
    if p = '%' then anySuffix (likeAux ps) t
    else if p = '_' then
      match t with
      | [] => false
      | _ :: ts => likeAux ps ts
    else
      match t with
      | [] => false
      | c :: ts => decide (p = c) && likeAux ps ts

/-- SQLite `text LIKE pattern`: wildcard matching, case-insensitive
for ASCII letters. -/
def sqlLike (pattern text : Str) : Bool :=
  likeAux (toLowerStr pattern) (toLowerStr text)

namespace SQLiteStore

/-- The WHERE clause of the expiry DELETE exactly as SQLite evaluates
it: scope = 'short' AND expires_at IS NOT NULL AND expires_at <= ?,
the comparison being BINARY TEXT order against the RFC3339Nano
encoding of the sweep time. -/
def expiredWhere (nowText : Str) (r : StoredRow) : Bool :=
  decide (r.scope = str "short")
    && (match r.expiresAt with
        | none => false
        | some e => textLe e nowText)

/-- SQLiteStore.ExpireShort over the persisted rows: DELETE the rows
matched by expiredWhere and report RowsAffected. -/
def ExpireShort (table : List StoredRow) (nowText : Str) : List StoredRow × Nat :=
  (table.filter (fun r => !expiredWhere nowText r), table.countP (expiredWhere nowText))

/-- The row filter shared by both search paths, as SQLite evaluates
it: namespace = ?, expires_at IS NULL OR expires_at > ? in BINARY TEXT
order, and the optional scope conjunct. -/
def rowWhere (ns scope nowText : Str) (r : StoredRow) : Bool :=
  decide (r.ns = ns)
    && (match r.expiresAt with
        | none => true
        | some e => textLt nowText e)
    && (decide (scope = []) || decide (r.scope = scope))

/-- The LIKE part of the searchLIKE WHERE clause: Go interpolates the
unescaped needle into `'%' + x + '%'`, so both the per-token patterns
and, in the token-free branch, the whole raw query are SQL LIKE
patterns, wildcards included. -/
def likeWhere (query : Str) (terms : List Str) (r : StoredRow) : Bool :=
  if terms ≠ [] then
    terms.all (fun t =>
      sqlLike (str "%" ++ t ++ str "%") r.content
        || sqlLike (str "%" ++ t ++ str "%") r.summary)
  else if query ≠ [] then
    sqlLike (str "%" ++ query ++ str "%") r.content
      || sqlLike (str "%" ++ query ++ str "%") r.summary
  else true

/-- ORDER BY created_at DESC over the stored TEXT (BINARY collation). -/
def createdTextGE (a b : StoredRow) : Prop := textLe b.createdAt a.createdAt = true

instance : DecidableRel createdTextGE :=
  fun a b => inferInstanceAs (Decidable (textLe b.createdAt a.createdAt = true))

/-- store.searchLIKE over the persisted rows: filter by the WHERE
clause, ORDER BY the created_at text descending, LIMIT, and attach the
fixed lexical scores. -/
def searchLIKE (table : List StoredRow) (ns query : Str) (terms : List Str)
    (scope : Str) (limit : Int) (nowText : Str) : List RowCandidate :=
  (((table.filter (fun r => rowWhere ns scope nowText r && likeWhere query terms r)).insertionSort
      createdTextGE).take limit.toNat).map
    (fun r => { row := r, lexicalScore := if query ≠ [] then 0.4 else 0.25 })

/-- store.SearchCandidates over the persisted rows; `fts` stands for
the one searchFTS call issued when tokens exist and FTS is enabled. -/
def SearchCandidates (ftsEnabled : Bool) (fts : Except Unit (List RowCandidate))
    (table : List StoredRow) (ns query scope : Str) (limit : Int)
    (nowText : Str) : List RowCandidate :=
  if tokenizeQueryTerms (trimSpace query) ≠ [] ∧ ftsEnabled = true then
    match fts with
    | .ok rows =>
      if rows ≠ [] then rows
      else searchLIKE table ns (trimSpace query) (tokenizeQueryTerms (trimSpace query)) scope
        (if limit ≤ 0 then 10 else limit) nowText
    | .error _ => searchLIKE table ns (trimSpace query) (tokenizeQueryTerms (trimSpace query)) scope
        (if limit ≤ 0 then 10 else limit) nowText
  else searchLIKE table ns (trimSpace query) (tokenizeQueryTerms (trimSpace query)) scope
    (if limit ≤ 0 then 10 else limit) nowText

end SQLiteStore

/-- The two wire encodings of internal/mcp. -/
inductive WireMode where
  | framed
  | jsonLine
deriving DecidableEq

/-- detectWireMode: skip leading whitespace, peek up to 16 bytes, and
enter framed mode iff they case-insensitively start the length header. -/
def detectWireMode (s : Str) : WireMode :=
  let rest := s.dropWhile Char.isWhitespace
  if List.isPrefixOf (str "content-length:") (toLowerStr (rest.take 16)) then
    WireMode.framed
  else WireMode.jsonLine

/-- The encoding Server.Serve uses for the reply to one message: replies
to parsed messages go through writeMessage with the detected mode
(line 90); replies to messages that fail JSON parsing go through
writeFramedMessage unconditionally (line 78). -/
def serveReplyMode (raw : Str) (parsed : Bool) : WireMode :=
  if parsed then detectWireMode raw else WireMode.framed

/-- internal/mcp.rpcError (the data field is irrelevant to the claims). -/
structure RpcErrorM where
  code : Int
  message : Str
deriving DecidableEq

/-- The dynamic shape of a response's Result value as far as
responseSuccessful/responseErrorText inspect it: Go nil (not a map),
a map without a boolean isError (initialize, ping, tools/list), or a
tool-call map carrying isError and the content item texts. -/
inductive ResultM where
  | nil
  | plainMap
  | toolMap (isErr : Bool) (contentTexts : List Str)
deriving DecidableEq

/-- internal/mcp.response, reduced to the fields the claims inspect. -/
structure ResponseM where
  error : Option RpcErrorM
  result : ResultM
deriving DecidableEq

/-- responseSuccessful (internal/mcp): false iff a protocol error object
is present or the result map carries isError = true. -/
def responseSuccessful (resp : ResponseM) : Bool :=
  match resp.error with
  | some _ => false
  | none =>
    match resp.result with
    | .toolMap isErr _ => !isErr
    | _ => true

/-- responseErrorText (internal/mcp). -/
def responseErrorText (resp : ResponseM) : Str :=
  match resp.error with
  | some e => trimSpace e.message
  | none =>
    match resp.result with
    | .toolMap true texts =>
      match texts with
      | [] => str "tool call failed"
      | t :: _ => if trimSpace t = [] then str "tool call failed" else trimSpace t
    | _ => []

/-- internal/mcp.request as dispatch sees it: whether an id was present,
the method, and the tool name a tools/call params object carries. -/
structure RequestM where
  hasID : Bool
  method : Str
  paramsToolName : Str
deriving DecidableEq

/-- toolNameFromParams: resolved only for tool invocations. -/
def toolNameFromParams (req : RequestM) : Str :=
  if req.method = str "tools/call" then trimSpace req.paramsToolName else []

/-- Server.handle.  The tool dispatch outcome enters as `toolCall`
(an error message, or the serialized success payload), mirroring
handleToolCall; the pair's second component is shouldRespond. -/
def handle (req : RequestM) (toolCall : Except Str Str) : ResponseM × Bool :=
  if req.method = str "notifications/initialized" then (⟨none, .nil⟩, false)
  else if req.method = str "initialize" then (⟨none, .plainMap⟩, req.hasID)
  else if req.method = str "ping" then (⟨none, .plainMap⟩, req.hasID)
  else if req.method = str "tools/list" then (⟨none, .plainMap⟩, req.hasID)
  else if req.method = str "tools/call" then
    match toolCall with
    | .error e => (⟨none, .toolMap true [e]⟩, req.hasID)
    | .ok t => (⟨none, .toolMap false [t]⟩, req.hasID)
  else if req.hasID then
    (⟨some ⟨-32601, str "method not found"⟩, .nil⟩, true)
  else (⟨none, .nil⟩, false)

/-- store.MCPRequestLog, reduced to the fields the claims inspect. -/
structure RequestEventM where
  method : Str
  toolName : Str
  success : Bool
  errorText : Str
deriving DecidableEq

/-- Server.recordRequest: the one observability record built for a
handled message (the sink being configured). -/
def recordRequest (req : RequestM) (resp : ResponseM) : RequestEventM :=
  { method := if trimSpace req.method = [] then str "unknown" else trimSpace req.method
    toolName := toolNameFromParams req
    success := responseSuccessful resp
    errorText := responseErrorText resp }

/-- The response recorded and replied on the JSON parse failure path of
Server.Serve (lines 70-77). -/
def parseErrorResponse : ResponseM :=
  { error := some { code := -32700, message := str "parse error" }, result := .nil }

/-- The response whose outcome Server.Serve records for one message. -/
def recordedResponse (parsed : Option RequestM) (toolCall : Except Str Str) : ResponseM :=
  match parsed with
  | none => parseErrorResponse
  | some req => (handle req toolCall).1

/-- One iteration of the Server.Serve loop, after the message bytes have
been read: `parsed` is the json.Unmarshal outcome.  Produces the
request-log records inserted into the sink and the reply (if any). -/
def serveStep (parsed : Option RequestM) (toolCall : Except Str Str) :
    List RequestEventM × Option ResponseM :=
  match parsed with
  | none =>
    ([recordRequest { hasID := false, method := str "parse_error", paramsToolName := [] }
        parseErrorResponse],
     some parseErrorResponse)
  | some req =>
    let out := handle req toolCall
    ([recordRequest req out.1], if out.2 then some out.1 else none)

/-- Whether a response carries a protocol-level error object or a
tool-level isError flag (the two failure shapes of the spec). -/
def protocolOrToolError (resp : ResponseM) : Prop :=
  resp.error ≠ none ∨ ∃ ts, resp.result = ResultM.toolMap true ts

/-- Boolean form of the tool-level isError flag. -/
def hasToolErr : ResultM → Bool
  | .toolMap true _ => true
  | _ => false

instance (resp : ResponseM) : Decidable (protocolOrToolError resp) :=
  decidable_of_iff (resp.error ≠ none ∨ hasToolErr resp.result = true) (by
    unfold protocolOrToolError
    rcases resp with ⟨e, r⟩
    rcases r with _ | _ | ⟨ie, ts⟩ <;> simp [hasToolErr]
    cases ie <;> simp [hasToolErr])

/-- Server.handle's initialize branch: the protocolVersion echoed back.
`pv` is what json.Unmarshal extracted from the params (Go leaves the
zero string when the field is absent or the params do not parse). -/
def initializeProtocolVersion (pv : Option Str) : Str :=
  let v := pv.getD []
  if trimSpace v = [] then str "2024-11-05" else v

/-- C4: a successful write stores scope short unless the input named
long (after case/space folding), sets an expiry exactly on short
records, and keeps the supplied importance iff it lies in 1..5,
defaulting to 3 otherwise. -/
theorem write_scope_importance_defaults (nsOK : Str → Bool) (cfg : Config)
    (inp : WriteInput) (now : ℚ) (newId : Str) (rec : MemoryRecord)
    (h : Write nsOK cfg inp now newId = .ok rec) :
    rec.scope = (if trimSpace (toLowerStr inp.scope) = str "long"
      then str "long" else str "short")
    ∧ (rec.expiresAt ≠ none ↔ rec.scope = str "short")
    ∧ rec.importance =
        (if 1 ≤ inp.importance ∧ inp.importance ≤ 5 then inp.importance else 3) := by
  have himp : (if inp.importance < 1 ∨ 5 < inp.importance then (3 : Int) else inp.importance)
      = (if 1 ≤ inp.importance ∧ inp.importance ≤ 5 then inp.importance else 3) := by
    by_cases hi : 1 ≤ inp.importance ∧ inp.importance ≤ 5
    · rw [if_neg (by omega), if_pos hi]
    · rw [if_neg hi]
      rcases lt_or_le inp.importance 1 with h1 | h1
      · rw [if_pos (Or.inl h1)]
      · rw [if_pos (Or.inr (by omega))]
  unfold Write at h
  cases hv : validateNamespace nsOK inp.ns with
  | error e => rw [hv] at h; exact absurd h (by simp)
  | ok u =>
    rw [hv] at h
    simp only at h
    by_cases h0 : trimSpace (toLowerStr inp.scope) = []
    · rw [if_pos h0, if_neg (by decide)] at h
      split at h
      · exact absurd h (by simp)
      · rw [Except.ok.injEq] at h
        subst h
        refine ⟨?_, ?_, ?_⟩
        · show str "short" = _
          rw [h0, if_neg (by decide)]
        · show (if str "short" = str "short" then _ else none) ≠ none ↔
            str "short" = str "short"
          rw [if_pos rfl]
          simp
        · exact himp
    · rw [if_neg h0] at h
      split at h
      · exact absurd h (by simp)
      · rename_i hsc
        split at h
        · exact absurd h (by simp)
        · rw [Except.ok.injEq] at h
          subst h
          rcases not_and_or.mp hsc with hs | hl
          · rw [not_not] at hs
            refine ⟨?_, ?_, ?_⟩
            · show trimSpace (toLowerStr inp.scope) = _
              rw [hs, if_neg (by decide)]
            · show (if trimSpace (toLowerStr inp.scope) = str "short" then _ else none) ≠ none ↔
                trimSpace (toLowerStr inp.scope) = str "short"
              rw [hs, if_pos rfl]
              simp
            · exact himp
          · rw [not_not] at hl
            refine ⟨?_, ?_, ?_⟩
            · show trimSpace (toLowerStr inp.scope) = _
              rw [hl, if_pos rfl]
            · show (if trimSpace (toLowerStr inp.scope) = str "short" then _ else none) ≠ none ↔
                trimSpace (toLowerStr inp.scope) = str "short"
              rw [hl, if_neg (by decide)]
              decide
            · exact himp

/-- Concrete configuration for witnesses (the validated defaults). -/
def wCfg : Config := { defaultShortTTLHours := 48, maxContextPackItems := 8, defaultSearchK := 10 }

/-- Concrete write input for the write witness: scope left empty,
importance out of range. -/
def wWriteIn : WriteInput :=
  { ns := str "a/b", scope := [], content := str "db",
    summary := [], importance := 9, sourceAgent := [], ttlSeconds := 7, metadata := [] }

/-- The record the concrete write stores. -/
def wWriteRec : MemoryRecord :=
  { id := str "id1", ns := str "a/b", scope := str "short", content := str "db",
    summary := str "db", importance := 3, sourceAgent := [], metadata := [],
    createdAt := 0, lastAccessedAt := 0, expiresAt := some 7, promotedAt := none }

set_option maxRecDepth 8000 in
/-- Witness: the write contract evaluated on the concrete input — the
stored record comes out short-scoped with an expiry and importance 3. -/
theorem write_scope_importance_defaults_witness :
    Write (fun _ => true) wCfg wWriteIn 0 (str "id1") = .ok wWriteRec
    ∧ (wWriteRec.scope = (if trimSpace (toLowerStr wWriteIn.scope) = str "long"
        then str "long" else str "short")
      ∧ (wWriteRec.expiresAt ≠ none ↔ wWriteRec.scope = str "short")
      ∧ wWriteRec.importance =
          (if 1 ≤ wWriteIn.importance ∧ wWriteIn.importance ≤ 5
            then wWriteIn.importance else 3)) :=
  ⟨by with_unfolding_all decide,
   write_scope_importance_defaults (fun _ => true) wCfg wWriteIn 0 (str "id1") wWriteRec
     (by with_unfolding_all decide)⟩

/-- C10: the initialize handler echoes the request's protocolVersion
verbatim when it is present and non-blank after trimming, and falls
back to the fixed default otherwise. -/
theorem initialize_protocol_version (pv : Option Str) :
    (∀ s, pv = some s → trimSpace s ≠ [] → initializeProtocolVersion pv = s)
    ∧ ((pv = none ∨ ∃ s, pv = some s ∧ trimSpace s = []) →
        initializeProtocolVersion pv = str "2024-11-05") := by
  constructor
  · intro s hs hne
    subst hs
    unfold initializeProtocolVersion
    simp only [Option.getD_some]
    rw [if_neg hne]
  · intro hd
    rcases hd with hn | ⟨s, hs, hb⟩
    · subst hn
      unfold initializeProtocolVersion
      simp only [Option.getD_none]
      rw [if_pos]
      decide
    · subst hs
      unfold initializeProtocolVersion
      simp only [Option.getD_some]
      rw [if_pos hb]

/-- Witness: a concrete present non-blank version is echoed, and a
blank one falls back to the default. -/
theorem initialize_protocol_version_witness :
    initializeProtocolVersion (some (str "2025-03-26")) = str "2025-03-26"
    ∧ initializeProtocolVersion (some (str "  ")) = str "2024-11-05" :=
  ⟨(initialize_protocol_version (some (str "2025-03-26"))).1 (str "2025-03-26")
     rfl (by with_unfolding_all decide),
   (initialize_protocol_version (some (str "  "))).2
     (Or.inr ⟨str "  ", rfl, by with_unfolding_all decide⟩)⟩

/-- C5 counterexample: the message `hello` begins with no length header,
so it is detected as a line-mode message; it is not valid JSON, so
json.Unmarshal fails and Server.Serve replies through
writeFramedMessage — a framed reply to a line-mode request, against the
claim that every reply (including parse-error replies) uses the
request's wire mode. -/
theorem parse_error_reply_mode_counterexample :
    detectWireMode (str "hello") = WireMode.jsonLine
    ∧ serveReplyMode (str "hello") false = WireMode.framed
    ∧ serveReplyMode (str "hello") false ≠ detectWireMode (str "hello") := by
  refine ⟨by decide, by decide, by decide⟩

/-- C5 amended: replies to messages that parse are encoded in the
detected wire mode of the request; replies to messages that fail to
parse are always framed. -/
theorem reply_mode_symmetric_amended (raw : Str) :
    serveReplyMode raw true = detectWireMode raw
    ∧ serveReplyMode raw false = WireMode.framed :=
  ⟨rfl, rfl⟩

/-- In every response the server can send, the success flag computed
for the request log is false exactly when a protocol-level error object
or a tool-level isError flag is present. -/
theorem responseSuccessful_false_iff (resp : ResponseM) :
    responseSuccessful resp = false ↔ protocolOrToolError resp := by
  rcases resp with ⟨e, r⟩
  rcases e with _ | e
  · rcases r with _ | _ | ⟨ie, ts⟩
    · simp [responseSuccessful, protocolOrToolError]
    · simp [responseSuccessful, protocolOrToolError]
    · cases ie <;> simp [responseSuccessful, protocolOrToolError]
  · simp [responseSuccessful, protocolOrToolError]

/-- C8: one iteration of the serve loop inserts exactly one request
record into a configured sink — also for messages that fail to parse
and for notifications that get no reply — its success flag is false iff
the recorded response carries a protocol error object or a tool-level
isError flag, and an unsuccessful record carries a non-empty error
string. -/
theorem request_record_exactly_once (parsed : Option RequestM)
    (toolCall : Except Str Str) :
    (serveStep parsed toolCall).1.length = 1
    ∧ ∀ ev ∈ (serveStep parsed toolCall).1,
        (ev.success = false ↔ protocolOrToolError (recordedResponse parsed toolCall))
        ∧ (ev.success = false → ev.errorText ≠ []) := by
  rcases parsed with _ | req
  · refine ⟨rfl, ?_⟩
    intro ev hev
    rw [serveStep, List.mem_singleton] at hev
    subst hev
    refine ⟨responseSuccessful_false_iff parseErrorResponse, fun _ => ?_⟩
    show responseErrorText parseErrorResponse ≠ []
    decide
  · refine ⟨rfl, ?_⟩
    intro ev hev
    rw [serveStep] at hev
    simp only [List.mem_singleton] at hev
    subst hev
    refine ⟨responseSuccessful_false_iff ((handle req toolCall).1), fun hfail => ?_⟩
    have hf2 : responseSuccessful (handle req toolCall).1 = false := hfail
    show responseErrorText (handle req toolCall).1 ≠ []
    have halt : responseSuccessful (handle req toolCall).1 = true
        ∨ responseErrorText (handle req toolCall).1 ≠ [] := by
      rcases toolCall with e | t <;>
        · unfold handle
          split_ifs
          · exact Or.inl rfl
          · exact Or.inl rfl
          · exact Or.inl rfl
          · exact Or.inl rfl
          · first
            | · refine Or.inr ?_
                show (if trimSpace e = [] then str "tool call failed" else trimSpace e) ≠ []
                by_cases he : trimSpace e = []
                · rw [if_pos he]; decide
                · rw [if_neg he]; exact he
            | exact Or.inl rfl
          · refine Or.inr ?_
            show trimSpace (str "method not found") ≠ []
            decide
          · exact Or.inl rfl
    rcases halt with ht | hne
    · rw [ht] at hf2
      exact absurd hf2 (by decide)
    · exact hne

/-- Concrete request for the observability witness: a failing tool call. -/
def wReq : RequestM := { hasID := true, method := str "tools/call", paramsToolName := str "memory_write" }

/-- Witness: the record properties evaluated for a concrete failing
tool invocation. -/
theorem request_record_exactly_once_witness :
    (serveStep (some wReq) (.error (str "boom"))).1.length = 1
    ∧ ∀ ev ∈ (serveStep (some wReq) (.error (str "boom"))).1,
        (ev.success = false ↔ protocolOrToolError (recordedResponse (some wReq) (.error (str "boom"))))
        ∧ (ev.success = false → ev.errorText ≠ []) :=
  request_record_exactly_once (some wReq) (.error (str "boom"))

/-- Head of a filtered list: a member satisfying the filter. -/
theorem head_filter_mem {p : MemoryRecord → Bool} {l : List MemoryRecord}
    {r : MemoryRecord} (h : (l.filter p).head? = some r) :
    r ∈ l ∧ p r = true := by
  have hm : r ∈ l.filter p := by
    cases hf : l.filter p with
    | nil => rw [hf] at h; exact absurd h (by simp)
    | cons x xs =>
      rw [hf] at h
      simp only [List.head?_cons, Option.some.injEq] at h
      subst h
      exact List.mem_cons_self _ _
  exact ⟨List.mem_of_mem_filter hm, List.of_mem_filter hm⟩

/-- Concrete short record for the promotion counterexample. -/
def wPromRec : MemoryRecord :=
  { id := str "a", ns := str "n/s", scope := str "short", content := str "c",
    summary := [], importance := 3, sourceAgent := [], metadata := [],
    createdAt := 0, lastAccessedAt := 0, expiresAt := some 5, promotedAt := none }

/-- The same record after the first promotion (now = 10). -/
def wPromRec1 : MemoryRecord :=
  { wPromRec with
    scope := str "long"
    expiresAt := none
    promotedAt := some 10
    lastAccessedAt := 10 }

/-- The same record after a second promotion (now = 20). -/
def wPromRec2 : MemoryRecord :=
  { wPromRec with
    scope := str "long"
    expiresAt := none
    promotedAt := some 20
    lastAccessedAt := 20 }

/-- The promote input used by the C6 theorems (target scope defaulted). -/
def wPromIn : PromoteInput := { memoryID := str "a", targetScope := [], reason := [] }

/-- C6 counterexample: the UPDATE behind promote carries no guard on the
current scope, so promoting the same id twice succeeds both times and
the second call overwrites promotedAt with the newer timestamp —
promotedAt is not set exactly once. -/
theorem promote_twice_counterexample :
    Promote [wPromRec] wPromIn 10 = .ok (wPromRec1, [wPromRec1])
    ∧ Promote [wPromRec1] wPromIn 20 = .ok (wPromRec2, [wPromRec2])
    ∧ wPromRec1.promotedAt = some 10
    ∧ wPromRec2.promotedAt = some 20
    ∧ wPromRec2.promotedAt ≠ wPromRec1.promotedAt := by
  with_unfolding_all decide

/-- C6 amended: a successful promote leaves the addressed record with
scope long, a null expiry and promotedAt equal to the promotion time,
and leaves every other record untouched; writes create records with a
null promotedAt, and the expiry sweep only ever deletes rows — but a
further promote call on the same id does succeed and moves promotedAt
to the new promotion time. -/
theorem promote_promotedAt_amended :
    (∀ (table : List MemoryRecord) (inp : PromoteInput) (now : ℚ) rec table',
        Promote table inp now = .ok (rec, table') →
        rec.id = inp.memoryID ∧ rec.scope = str "long" ∧ rec.expiresAt = none
        ∧ rec.promotedAt = some now
        ∧ (∀ r ∈ table', r.id ≠ inp.memoryID → r ∈ table))
    ∧ (∀ (nsOK : Str → Bool) (cfg : Config) (winp : WriteInput) (now : ℚ) newId rec,
        Write nsOK cfg winp now newId = .ok rec → rec.promotedAt = none)
    ∧ (∀ (table : List MemoryRecord) (now : ℚ) r,
        r ∈ (ExpireShort table now).1 → r ∈ table) := by
  refine ⟨?_, ?_, ?_⟩
  · intro table inp now rec table' h
    have core : ∀ t', storePromote table inp.memoryID now = .ok t' →
        getMemory t' inp.memoryID = some rec → table' = t' →
        rec.id = inp.memoryID ∧ rec.scope = str "long" ∧ rec.expiresAt = none
        ∧ rec.promotedAt = some now
        ∧ (∀ r ∈ table', r.id ≠ inp.memoryID → r ∈ table) := by
      intro t' hsp hg htt
      subst htt
      unfold storePromote at hsp
      split at hsp
      · exact absurd hsp (by simp)
      · rw [Except.ok.injEq] at hsp
        subst hsp
        unfold getMemory at hg
        obtain ⟨hmem, hpred⟩ := head_filter_mem hg
        rw [decide_eq_true_eq] at hpred
        obtain ⟨r0, hr0, hupd⟩ := List.mem_map.mp hmem
        by_cases hid : r0.id = inp.memoryID
        · rw [if_pos hid] at hupd
          subst hupd
          refine ⟨hpred, rfl, rfl, rfl, ?_⟩
          intro r hrt hrid
          obtain ⟨r1, hr1, hu1⟩ := List.mem_map.mp hrt
          by_cases hid1 : r1.id = inp.memoryID
          · rw [if_pos hid1] at hu1
            subst hu1
            exact absurd hid1 hrid
          · rw [if_neg hid1] at hu1
            subst hu1
            exact hr1
        · rw [if_neg hid] at hupd
          subst hupd
          exact absurd hpred hid
    have htail : ∀ hm : (match storePromote table inp.memoryID now with
          | Except.error _ => Except.error (str "memory not found")
          | Except.ok t' =>
            match getMemory t' inp.memoryID with
            | some r => Except.ok (r, t')
            | none => Except.error (str "get memory failed")) = Except.ok (rec, table'),
        rec.id = inp.memoryID ∧ rec.scope = str "long" ∧ rec.expiresAt = none
        ∧ rec.promotedAt = some now
        ∧ (∀ r ∈ table', r.id ≠ inp.memoryID → r ∈ table) := by
      intro hm
      cases hsp : storePromote table inp.memoryID now with
      | error e => rw [hsp] at hm; exact absurd hm (by simp)
      | ok t' =>
        rw [hsp] at hm
        simp only at hm
        cases hg : getMemory t' inp.memoryID with
        | none => rw [hg] at hm; exact absurd hm (by simp)
        | some r =>
          rw [hg] at hm
          simp only [Except.ok.injEq, Prod.mk.injEq] at hm
          obtain ⟨hr, ht⟩ := hm
          subst hr
          exact core t' hsp hg ht.symm
    unfold Promote at h
    split at h
    · exact absurd h (by simp)
    · split at h
      · rename_i htgt
        rw [if_neg (fun hc => hc rfl)] at h
        exact htail h
      · split at h
        · exact absurd h (by simp)
        · exact htail h
  · intro nsOK cfg winp now newId rec h
    unfold Write at h
    cases hv : validateNamespace nsOK winp.ns with
    | error e => rw [hv] at h; exact absurd h (by simp)
    | ok u =>
      rw [hv] at h
      simp only at h
      repeat' split at h
      all_goals
        first
          | (rw [Except.ok.injEq] at h; subst h; rfl)
          | exact absurd h (by simp)
  · intro table now r h
    exact List.mem_of_mem_filter h

/-- Witness: the amended promote contract evaluated on the concrete
single-row table at promotion time 10. -/
theorem promote_promotedAt_amended_witness :
    Promote [wPromRec] wPromIn 10 = .ok (wPromRec1, [wPromRec1])
    ∧ (wPromRec1.id = wPromIn.memoryID ∧ wPromRec1.scope = str "long"
      ∧ wPromRec1.expiresAt = none ∧ wPromRec1.promotedAt = some 10
      ∧ (∀ r ∈ [wPromRec1], r.id ≠ wPromIn.memoryID → r ∈ [wPromRec])) :=
  ⟨by with_unfolding_all decide,
   promote_promotedAt_amended.1 [wPromRec] wPromIn 10 wPromRec1 [wPromRec1]
     (by with_unfolding_all decide)⟩

/-- One dedup-eligible pack entry: dedup key, formatted line, entry id. -/
structure PackLine where
  norm : Str
  line : Str
  rid : Str
deriving DecidableEq

/-- The dedup/empty-skip stage of the ContextPack loop, separated from
the budget stage: the entries that reach the budget check, in rank
order, each with its dedup key, formatted line and id. -/
def eligibleLines (seen : List Str) : List MemoryRecord → List PackLine
  | [] => []
  | r :: rest =>
    let text := displayText r
    if text = [] then eligibleLines seen rest
    else
      let norm := normalize text
      if norm ∈ seen then eligibleLines seen rest
      else { norm := norm, line := packLineOf r, rid := r.id } ::
        eligibleLines (norm :: seen) rest

/-- The budget stage in the spec's words: emit lines in rank order and
stop outright at the first line whose cost would push the running total
past the budget — no skip-and-continue. -/
def emitWithin (budget : Int) (tokens : Nat) : List PackLine → List PackLine
  | [] => []
  | e :: rest =>
    if (tokens + estimateTokens e.line : Int) > budget then []
    else e :: emitWithin budget (tokens + estimateTokens e.line) rest

/-- Total estimated token cost of a list of pack lines. -/
def packCost (es : List PackLine) : Nat :=
  (es.map (fun e => estimateTokens e.line)).sum

/-- The emission loop decomposes exactly into the dedup stage followed
by the stop-at-first-overflow budget stage, and the returned token
total is the running total plus the cost of the emitted lines. -/
theorem packLines_eq (budget : Int) :
    ∀ (rs : List MemoryRecord) (seen : List Str) (tokens : Nat),
      packLines budget rs seen tokens =
        ((emitWithin budget tokens (eligibleLines seen rs)).map (fun e => e.line),
         (emitWithin budget tokens (eligibleLines seen rs)).map (fun e => e.rid),
         tokens + packCost (emitWithin budget tokens (eligibleLines seen rs))) := by
  intro rs
  induction rs with
  | nil =>
    intro seen tokens
    simp [packLines, eligibleLines, emitWithin, packCost]
  | cons r rest ih =>
    intro seen tokens
    unfold packLines eligibleLines
    simp only
    by_cases ht : displayText r = []
    · rw [if_pos ht, if_pos ht]
      exact ih seen tokens
    · rw [if_neg ht, if_neg ht]
      by_cases hn : normalize (displayText r) ∈ seen
      · rw [if_pos hn, if_pos hn]
        exact ih seen tokens
      · rw [if_neg hn, if_neg hn]
        unfold emitWithin
        simp only
        by_cases hb : (tokens + estimateTokens (packLineOf r) : Int) > budget
        · rw [if_pos hb, if_pos hb]
          simp [packCost]
        · rw [if_neg hb, if_neg hb]
          rw [ih (normalize (displayText r) :: seen) (tokens + estimateTokens (packLineOf r))]
          simp only [List.map_cons, packCost, List.sum_cons, Prod.mk.injEq]
          refine ⟨trivial, trivial, ?_⟩
          omega

/-- The budget stage never pushes the running total past the budget. -/
theorem emitWithin_le (budget : Int) :
    ∀ (es : List PackLine) (tokens : Nat), (tokens : Int) ≤ budget →
      (tokens + packCost (emitWithin budget tokens es) : Int) ≤ budget := by
  intro es
  induction es with
  | nil =>
    intro tokens h
    simp only [emitWithin, packCost, List.map_nil, List.sum_nil, Nat.cast_zero, add_zero]
    exact h
  | cons e rest ih =>
    intro tokens h
    unfold emitWithin
    by_cases hb : (tokens + estimateTokens e.line : Int) > budget
    · rw [if_pos hb]
      simp only [packCost, List.map_nil, List.sum_nil, Nat.cast_zero, add_zero]
      exact h
    · rw [if_neg hb]
      have hrec := ih (tokens + estimateTokens e.line) (by push_cast at hb ⊢; omega)
      simp only [packCost, List.map_cons, List.sum_cons] at hrec ⊢
      push_cast at hrec ⊢
      omega

/-- The budget stage emits a prefix of the eligible lines. -/
theorem emitWithin_isPrefix (budget : Int) :
    ∀ (es : List PackLine) (tokens : Nat), emitWithin budget tokens es <+: es := by
  intro es
  induction es with
  | nil => intro tokens; exact List.nil_prefix
  | cons e rest ih =>
    intro tokens
    unfold emitWithin
    by_cases hb : (tokens + estimateTokens e.line : Int) > budget
    · rw [if_pos hb]
      exact List.nil_prefix
    · rw [if_neg hb]
      rcases ih (tokens + estimateTokens e.line) with ⟨t, ht⟩
      exact ⟨t, by rw [List.cons_append, ht]⟩

set_option maxHeartbeats 1000000 in
/-- The dedup stage produces pairwise-distinct dedup keys, never reuses
a key from `seen`, and every produced entry comes from a record of the
input list with that record's normalized display text, line and id. -/
theorem eligibleLines_sound :
    ∀ (rs : List MemoryRecord) (seen : List Str),
      ((eligibleLines seen rs).map (fun e => e.norm)).Nodup
      ∧ (∀ e ∈ eligibleLines seen rs, e.norm ∉ seen)
      ∧ (∀ e ∈ eligibleLines seen rs, ∃ r ∈ rs,
          displayText r ≠ [] ∧ e.norm = normalize (displayText r)
          ∧ e.line = packLineOf r ∧ e.rid = r.id) := by
  intro rs
  induction rs with
  | nil =>
    intro seen
    refine ⟨by simp [eligibleLines], ?_, ?_⟩
    · intro e he
      simp [eligibleLines] at he
    · intro e he
      simp [eligibleLines] at he
  | cons r rest ih =>
    intro seen
    unfold eligibleLines
    simp only
    by_cases ht : displayText r = []
    · rw [if_pos ht]
      obtain ⟨ihn, ihs, ihm⟩ := ih seen
      refine ⟨ihn, ihs, ?_⟩
      intro e he
      obtain ⟨r', hr', hrest⟩ := ihm e he
      exact ⟨r', List.mem_cons_of_mem _ hr', hrest⟩
    · rw [if_neg ht]
      by_cases hn : normalize (displayText r) ∈ seen
      · rw [if_pos hn]
        obtain ⟨ihn, ihs, ihm⟩ := ih seen
        refine ⟨ihn, ihs, ?_⟩
        intro e he
        obtain ⟨r', hr', hrest⟩ := ihm e he
        exact ⟨r', List.mem_cons_of_mem _ hr', hrest⟩
      · rw [if_neg hn]
        obtain ⟨ihn, ihs, ihm⟩ := ih (normalize (displayText r) :: seen)
        refine ⟨?_, ?_, ?_⟩
        · simp only [List.map_cons, List.nodup_cons]
          refine ⟨?_, ihn⟩
          intro hmem
          simp only [List.mem_map] at hmem
          obtain ⟨e, he, hen⟩ := hmem
          exact (ihs e he) (by rw [hen]; exact List.mem_cons_self _ _)
        · intro e he
          rcases List.mem_cons.mp he with heq | he'
          · rw [heq]
            exact hn
          · intro hseen
            exact (ihs e he') (List.mem_cons_of_mem _ hseen)
        · intro e he
          rcases List.mem_cons.mp he with heq | he'
          · exact ⟨r, List.mem_cons_self _ _, ht, by rw [heq], by rw [heq], by rw [heq]⟩
          · obtain ⟨r', hr', hrest⟩ := ihm e he'
            exact ⟨r', List.mem_cons_of_mem _ hr', hrest⟩

/-- The emitted pack entries for a ranked result list under a budget:
dedup stage then stop-at-first-overflow budget stage. -/
def packEmit (budget : Int) (results : List SearchResult) : List PackLine :=
  emitWithin budget 0 (eligibleLines [] (results.map (fun r => r.record)))

/-- C1: a context pack's estimated token total is the summed cost
(ceil(runes/4) with floor 1 per line) of exactly the emitted lines and
never exceeds the token budget (512 when the requested budget is
non-positive); the emitted lines are the stop-at-first-overflow prefix
of the deduplicated rank-ordered lines — emission stops at the first
line that would overflow instead of skipping it and continuing. -/
theorem contextPack_token_budget (exp : ℚ → ℚ) (nsOK : Str → Bool) (cfg : Config)
    (store : Str → Str → Str → Int → ℚ → List Candidate)
    (inp : ContextPackInput) (now : ℚ) (pack : ContextPackResult)
    (h : ContextPack exp nsOK cfg store inp now = .ok pack) :
    (pack.estimatedTokens : Int) ≤ defaultBudget inp.tokenBudget
    ∧ ∀ results,
        Search exp nsOK cfg store
          { ns := inp.ns, query := inp.query, scope := inp.scope,
            k := clampPackK cfg inp.k, includeMetadata := false } now = .ok results →
        pack.text = List.intercalate (str "\n")
            ((packEmit (defaultBudget inp.tokenBudget) results).map (fun e => e.line))
        ∧ pack.memoryIDs =
            (packEmit (defaultBudget inp.tokenBudget) results).map (fun e => e.rid)
        ∧ pack.estimatedTokens =
            packCost (packEmit (defaultBudget inp.tokenBudget) results) := by
  unfold ContextPack at h
  simp only at h
  cases hs : Search exp nsOK cfg store
      { ns := inp.ns, query := inp.query, scope := inp.scope,
        k := clampPackK cfg inp.k, includeMetadata := false } now with
  | error e =>
    rw [hs] at h
    exact absurd h (by simp)
  | ok results0 =>
    rw [hs] at h
    simp only at h
    rw [packLines_eq] at h
    rw [Except.ok.injEq] at h
    subst h
    have hb0 : ((0 : Nat) : Int) ≤ defaultBudget inp.tokenBudget := by
      unfold defaultBudget
      split <;> omega
    have hle := emitWithin_le (defaultBudget inp.tokenBudget)
      (eligibleLines [] (results0.map (fun r => r.record))) 0 hb0
    constructor
    · simp only [Nat.cast_zero, zero_add] at hle
      simpa [packEmit] using hle
    · intro results hres
      rw [Except.ok.injEq] at hres
      subst hres
      exact ⟨rfl, rfl, by simp [packEmit]⟩

/-- C9: the emitted pack entries carry pairwise-distinct normalized
dedup keys — two ranked entries with identical normalized display texts
contribute at most one line — each emitted entry is the line of some
ranked result with a non-empty display text, and skipped entries
contribute nothing: the id list and the token total range over exactly
the emitted entries. -/
theorem contextPack_dedup (exp : ℚ → ℚ) (nsOK : Str → Bool) (cfg : Config)
    (store : Str → Str → Str → Int → ℚ → List Candidate)
    (inp : ContextPackInput) (now : ℚ) (pack : ContextPackResult)
    (results : List SearchResult)
    (h : ContextPack exp nsOK cfg store inp now = .ok pack)
    (hres : Search exp nsOK cfg store
      { ns := inp.ns, query := inp.query, scope := inp.scope,
        k := clampPackK cfg inp.k, includeMetadata := false } now = .ok results) :
    pack.text = List.intercalate (str "\n")
        ((packEmit (defaultBudget inp.tokenBudget) results).map (fun e => e.line))
    ∧ pack.memoryIDs =
        (packEmit (defaultBudget inp.tokenBudget) results).map (fun e => e.rid)
    ∧ pack.estimatedTokens =
        packCost (packEmit (defaultBudget inp.tokenBudget) results)
    ∧ ((packEmit (defaultBudget inp.tokenBudget) results).map (fun e => e.norm)).Nodup
    ∧ ∀ e ∈ packEmit (defaultBudget inp.tokenBudget) results, ∃ r ∈ results,
        displayText r.record ≠ [] ∧ e.norm = normalize (displayText r.record)
        ∧ e.line = packLineOf r.record ∧ e.rid = r.record.id := by
  obtain ⟨hbound, hrest⟩ := contextPack_token_budget exp nsOK cfg store inp now pack h
  obtain ⟨h1, h2, h3⟩ := hrest results hres
  obtain ⟨hnodup, _, hfrom⟩ :=
    eligibleLines_sound (results.map (fun r => r.record)) []
  have hsub : List.Sublist (packEmit (defaultBudget inp.tokenBudget) results)
      (eligibleLines [] (results.map (fun r => r.record))) := by
    unfold packEmit
    exact (emitWithin_isPrefix (defaultBudget inp.tokenBudget)
      (eligibleLines [] (results.map (fun r => r.record))) 0).sublist
  refine ⟨h1, h2, h3, ?_, ?_⟩
  · exact List.Nodup.sublist (hsub.map (fun e => e.norm)) hnodup
  · intro e he
    have hememe : e ∈ eligibleLines [] (results.map (fun r => r.record)) :=
      hsub.subset he
    obtain ⟨r, hr, hne, hnorm, hline, hrid⟩ := hfrom e hememe
    obtain ⟨rr, hrr, hrreq⟩ := List.mem_map.mp hr
    subst hrreq
    exact ⟨rr, hrr, hne, hnorm, hline, hrid⟩

/-- Constant-zero stand-in for math.Exp in witnesses (the recency
branch taken at the witness inputs never calls it). -/
def wExpZero : ℚ → ℚ := fun _ => 0

/-- First concrete pack record (summary `A note`). -/
def wPackRecA : MemoryRecord :=
  { id := str "a1", ns := str "a/b", scope := str "long", content := str "zz",
    summary := str "A note", importance := 3, sourceAgent := [], metadata := [],
    createdAt := 0, lastAccessedAt := 0, expiresAt := none, promotedAt := none }

/-- Second concrete pack record whose summary normalizes to the same
dedup key as the first. -/
def wPackRecB : MemoryRecord :=
  { id := str "b2", ns := str "a/b", scope := str "long", content := str "yy",
    summary := str "a  Note", importance := 3, sourceAgent := [], metadata := [],
    createdAt := 0, lastAccessedAt := 0, expiresAt := none, promotedAt := none }

/-- Store stub returning the two concrete pack candidates. -/
def wPackStore : Str → Str → Str → Int → ℚ → List Candidate :=
  fun _ _ _ _ _ => [{ record := wPackRecA, lexicalScore := 1/2 },
                    { record := wPackRecB, lexicalScore := 1/2 }]

/-- Concrete context-pack request (budget and K defaulted). -/
def wPackIn : ContextPackInput :=
  { ns := str "a/b", query := [], tokenBudget := 0, scope := [], k := 0 }

/-- The results of the concrete inner search. -/
def wPackResults : List SearchResult :=
  match Search wExpZero (fun _ => true) wCfg wPackStore
      { ns := wPackIn.ns, query := wPackIn.query, scope := wPackIn.scope,
        k := clampPackK wCfg wPackIn.k, includeMetadata := false } 0 with
  | .ok rs => rs
  | .error _ => []

/-- The concrete context pack built over those results. -/
def wPackOut : ContextPackResult :=
  match ContextPack wExpZero (fun _ => true) wCfg wPackStore wPackIn 0 with
  | .ok p => p
  | .error _ => { text := [], estimatedTokens := 0, memoryIDs := [] }

set_option maxRecDepth 20000 in
/-- Witness: the budget contract evaluated on the concrete pack request. -/
theorem contextPack_token_budget_witness :
    ((wPackOut.estimatedTokens : Int) ≤ defaultBudget wPackIn.tokenBudget
    ∧ ∀ results,
        Search wExpZero (fun _ => true) wCfg wPackStore
          { ns := wPackIn.ns, query := wPackIn.query, scope := wPackIn.scope,
            k := clampPackK wCfg wPackIn.k, includeMetadata := false } 0 = .ok results →
        wPackOut.text = List.intercalate (str "\n")
            ((packEmit (defaultBudget wPackIn.tokenBudget) results).map (fun e => e.line))
        ∧ wPackOut.memoryIDs =
            (packEmit (defaultBudget wPackIn.tokenBudget) results).map (fun e => e.rid)
        ∧ wPackOut.estimatedTokens =
            packCost (packEmit (defaultBudget wPackIn.tokenBudget) results)) :=
  contextPack_token_budget wExpZero (fun _ => true) wCfg wPackStore wPackIn 0 wPackOut
    (by with_unfolding_all decide)

set_option maxRecDepth 20000 in
/-- Witness: the dedup contract evaluated on the concrete pack request,
whose two candidates share one normalized display text. -/
theorem contextPack_dedup_witness :
    (wPackOut.text = List.intercalate (str "\n")
        ((packEmit (defaultBudget wPackIn.tokenBudget) wPackResults).map (fun e => e.line))
    ∧ wPackOut.memoryIDs =
        (packEmit (defaultBudget wPackIn.tokenBudget) wPackResults).map (fun e => e.rid)
    ∧ wPackOut.estimatedTokens =
        packCost (packEmit (defaultBudget wPackIn.tokenBudget) wPackResults)
    ∧ ((packEmit (defaultBudget wPackIn.tokenBudget) wPackResults).map (fun e => e.norm)).Nodup
    ∧ ∀ e ∈ packEmit (defaultBudget wPackIn.tokenBudget) wPackResults, ∃ r ∈ wPackResults,
        displayText r.record ≠ [] ∧ e.norm = normalize (displayText r.record)
        ∧ e.line = packLineOf r.record ∧ e.rid = r.record.id) :=
  contextPack_dedup wExpZero (fun _ => true) wCfg wPackStore wPackIn 0 wPackOut wPackResults
    (by with_unfolding_all decide) (by with_unfolding_all decide)

/-- stripMetadata changes no score field and no record field except
metadata. -/
theorem stripMetadata_fields (r : SearchResult) :
    (stripMetadata r).score = r.score
    ∧ (stripMetadata r).lexicalScore = r.lexicalScore
    ∧ (stripMetadata r).recencyScore = r.recencyScore
    ∧ (stripMetadata r).importanceScore = r.importanceScore
    ∧ (stripMetadata r).record.id = r.record.id
    ∧ (stripMetadata r).record.createdAt = r.record.createdAt
    ∧ (stripMetadata r).record.importance = r.record.importance :=
  ⟨rfl, rfl, rfl, rfl, rfl, rfl, rfl⟩

/-- Filtering commutes with taking a prefix: the filtered prefix is a
prefix of the filtered list. -/
theorem filter_take_isPrefix {α : Type} (p : α → Bool) (n : Nat) (l : List α) :
    (l.take n).filter p <+: l.filter p := by
  conv_rhs => rw [← List.take_append_drop n l]
  rw [List.filter_append]
  exact List.prefix_append _ _

/-- Inserting an element of the tie class `c` into a list puts it in
front of the class (all elements passed over lie strictly above `c`). -/
theorem filter_orderedInsert_pos (c : ℚ) (a : SearchResult) (ha : a.score = c) :
    ∀ l : List SearchResult,
      (List.orderedInsert scoreGE a l).filter (fun x => decide (x.score = c))
        = a :: l.filter (fun x => decide (x.score = c)) := by
  intro l
  induction l with
  | nil => simp [List.orderedInsert, ha]
  | cons b t ih =>
    unfold List.orderedInsert
    by_cases hr : scoreGE a b
    · rw [if_pos hr]
      rw [List.filter_cons, List.filter_cons]
      simp [ha]
    · rw [if_neg hr]
      have hbf : decide (b.score = c) = false := by
        apply decide_eq_false
        intro hbc
        apply hr
        unfold scoreGE
        rw [hbc, ha]
      rw [List.filter_cons, List.filter_cons, hbf]
      simp only [Bool.false_eq_true, if_false]
      exact ih

/-- Inserting an element outside the tie class `c` leaves the class
subsequence unchanged. -/
theorem filter_orderedInsert_neg (c : ℚ) (a : SearchResult) (ha : ¬a.score = c) :
    ∀ l : List SearchResult,
      (List.orderedInsert scoreGE a l).filter (fun x => decide (x.score = c))
        = l.filter (fun x => decide (x.score = c)) := by
  intro l
  induction l with
  | nil => simp [List.orderedInsert, ha]
  | cons b t ih =>
    unfold List.orderedInsert
    by_cases hr : scoreGE a b
    · rw [if_pos hr]
      rw [List.filter_cons, List.filter_cons]
      simp [ha]
    · rw [if_neg hr]
      rw [List.filter_cons, List.filter_cons, ih]

/-- Stability of the embedded sort: each score class keeps its original
relative order — filtering any tie class commutes with sorting. -/
theorem insertionSort_filter_eq (c : ℚ) :
    ∀ l : List SearchResult,
      (List.insertionSort scoreGE l).filter (fun x => decide (x.score = c))
        = l.filter (fun x => decide (x.score = c)) := by
  intro l
  induction l with
  | nil => rfl
  | cons a t ih =>
    rw [List.insertionSort]
    by_cases ha : a.score = c
    · rw [filter_orderedInsert_pos c a ha, ih, List.filter_cons]
      simp [ha]
    · rw [filter_orderedInsert_neg c a ha, ih, List.filter_cons]
      simp [ha]

/-- Mapping to ids ignores metadata stripping. -/
theorem map_id_strip : ∀ l : List SearchResult,
    (l.map stripMetadata).map (fun r => r.record.id) = l.map (fun r => r.record.id) := by
  intro l
  induction l with
  | nil => rfl
  | cons a t ih =>
    simp only [List.map_cons]
    rw [ih]
    rfl

/-- Filtering on the score ignores metadata stripping. -/
theorem filter_strip (c : ℚ) : ∀ l : List SearchResult,
    (l.map stripMetadata).filter (fun r => decide (r.score = c))
      = (l.filter (fun r => decide (r.score = c))).map stripMetadata := by
  intro l
  induction l with
  | nil => rfl
  | cons a t ih =>
    simp only [List.map_cons, List.filter_cons]
    by_cases ha : a.score = c
    · have h1 : decide ((stripMetadata a).score = c) = true := decide_eq_true ha
      have h2 : decide (a.score = c) = true := decide_eq_true ha
      rw [h1, h2]
      simp only [if_true, List.map_cons]
      rw [ih]
    · have h1 : decide ((stripMetadata a).score = c) = false := decide_eq_false ha
      have h2 : decide (a.score = c) = false := decide_eq_false ha
      rw [h1, h2]
      simp only [Bool.false_eq_true, if_false]
      exact ih

/-- The post-validation core of Service.Search: score fusion, the
stable descending sort, truncation to K, and the optional metadata
strip. -/
theorem search_core (exp : ℚ → ℚ) (now : ℚ) (cands : List Candidate) (k : Int)
    (hk1 : 1 ≤ k) (im : Bool) (rs : List SearchResult)
    (hrs : rs =
      (if im then
        (if ((List.insertionSort scoreGE (cands.map (scoreCandidate exp now))).length : Int) > k
          then (List.insertionSort scoreGE (cands.map (scoreCandidate exp now))).take k.toNat
          else List.insertionSort scoreGE (cands.map (scoreCandidate exp now)))
      else
        (if ((List.insertionSort scoreGE (cands.map (scoreCandidate exp now))).length : Int) > k
          then (List.insertionSort scoreGE (cands.map (scoreCandidate exp now))).take k.toNat
          else List.insertionSort scoreGE (cands.map (scoreCandidate exp now))).map
            stripMetadata)) :
    (∀ r ∈ rs,
        r.score = 0.60 * r.lexicalScore + 0.25 * r.recencyScore + 0.15 * r.importanceScore
        ∧ r.recencyScore = recencyScore exp now r.record.createdAt
        ∧ r.importanceScore = (r.record.importance : ℚ) / 5
        ∧ (now - r.record.createdAt ≤ 0 → r.recencyScore = 1))
    ∧ rs.Pairwise (fun a b => b.score ≤ a.score)
    ∧ rs.length = min k.toNat cands.length
    ∧ ∀ c : ℚ,
        ((rs.filter (fun r => decide (r.score = c))).map (fun r => r.record.id)) <+:
          (((cands.map (scoreCandidate exp now)).filter
            (fun r => decide (r.score = c))).map (fun r => r.record.id)) := by
  haveI : IsTotal SearchResult scoreGE := ⟨fun a b => le_total b.score a.score⟩
  haveI : IsTrans SearchResult scoreGE := ⟨fun _ _ _ h1 h2 => le_trans h2 h1⟩
  have hsorted : (List.insertionSort scoreGE (cands.map (scoreCandidate exp now))).Pairwise
      scoreGE := List.sorted_insertionSort scoreGE _
  have hslen : (List.insertionSort scoreGE (cands.map (scoreCandidate exp now))).length
      = cands.length := by
    rw [List.length_insertionSort, List.length_map]
  have hAscored : ∀ r ∈ cands.map (scoreCandidate exp now),
      r.score = 0.60 * r.lexicalScore + 0.25 * r.recencyScore + 0.15 * r.importanceScore
      ∧ r.recencyScore = recencyScore exp now r.record.createdAt
      ∧ r.importanceScore = (r.record.importance : ℚ) / 5
      ∧ (now - r.record.createdAt ≤ 0 → r.recencyScore = 1) := by
    intro r hr
    obtain ⟨cand, hcand, hre⟩ := List.mem_map.mp hr
    subst hre
    refine ⟨rfl, rfl, rfl, ?_⟩
    intro hle
    show recencyScore exp now cand.record.createdAt = 1
    unfold recencyScore
    simp only
    rw [if_pos]
    rw [div_nonpos_iff]
    right
    constructor
    · exact hle
    · norm_num
  have hTmem : ∀ r ∈ (if ((List.insertionSort scoreGE
        (cands.map (scoreCandidate exp now))).length : Int) > k
      then (List.insertionSort scoreGE (cands.map (scoreCandidate exp now))).take k.toNat
      else List.insertionSort scoreGE (cands.map (scoreCandidate exp now))),
      r ∈ cands.map (scoreCandidate exp now) := by
    intro r hr
    split at hr
    · exact (List.mem_insertionSort scoreGE).mp (List.mem_of_mem_take hr)
    · exact (List.mem_insertionSort scoreGE).mp hr
  have hTpair : (if ((List.insertionSort scoreGE
        (cands.map (scoreCandidate exp now))).length : Int) > k
      then (List.insertionSort scoreGE (cands.map (scoreCandidate exp now))).take k.toNat
      else List.insertionSort scoreGE (cands.map (scoreCandidate exp now))).Pairwise
      scoreGE := by
    split
    · exact hsorted.sublist (List.take_sublist _ _)
    · exact hsorted
  have hTlen : (if ((List.insertionSort scoreGE
        (cands.map (scoreCandidate exp now))).length : Int) > k
      then (List.insertionSort scoreGE (cands.map (scoreCandidate exp now))).take k.toNat
      else List.insertionSort scoreGE (cands.map (scoreCandidate exp now))).length
      = min k.toNat cands.length := by
    split
    · rename_i hgt
      rw [List.length_take, hslen]
    · rename_i hgt
      rw [hslen]
      rw [hslen] at hgt
      symm
      apply min_eq_right
      omega
  have hTpre : ∀ c : ℚ, (((if ((List.insertionSort scoreGE
        (cands.map (scoreCandidate exp now))).length : Int) > k
      then (List.insertionSort scoreGE (cands.map (scoreCandidate exp now))).take k.toNat
      else List.insertionSort scoreGE (cands.map (scoreCandidate exp now))).filter
        (fun r => decide (r.score = c))).map (fun r => r.record.id)) <+:
      (((cands.map (scoreCandidate exp now)).filter
        (fun r => decide (r.score = c))).map (fun r => r.record.id)) := by
    intro c
    have hbase : ((List.insertionSort scoreGE (cands.map (scoreCandidate exp now))).filter
        (fun r => decide (r.score = c)))
        = ((cands.map (scoreCandidate exp now)).filter (fun r => decide (r.score = c))) :=
      insertionSort_filter_eq c _
    split
    · have hp := filter_take_isPrefix (fun r : SearchResult => decide (r.score = c)) k.toNat
        (List.insertionSort scoreGE (cands.map (scoreCandidate exp now)))
      rw [hbase] at hp
      obtain ⟨t, ht⟩ := hp
      exact ⟨t.map (fun r => r.record.id), by rw [← List.map_append, ht]⟩
    · rw [hbase]
  by_cases him : im
  · rw [him, if_pos rfl] at hrs
    subst hrs
    exact ⟨fun r hr => hAscored r (hTmem r hr), hTpair, hTlen, hTpre⟩
  · rw [if_neg him] at hrs
    subst hrs
    refine ⟨?_, ?_, ?_, ?_⟩
    · intro r hr
      obtain ⟨r0, hr0, hre⟩ := List.mem_map.mp hr
      subst hre
      exact hAscored r0 (hTmem r0 hr0)
    · exact List.Pairwise.map stripMetadata (fun a b h => h) hTpair
    · rw [List.length_map]
      exact hTlen
    · intro c
      rw [filter_strip c, map_id_strip]
      exact hTpre c

/-- C2: every returned search result's final score is
0.60·lexical + 0.25·recency + 0.15·(importance/5) with the recency
factor exp(-days/14) clamped to 1 for non-positive elapsed time;
results are sorted descending by final score with ties keeping the
pre-sort (candidate) order — any equal-score class of the output ids is
a prefix of that class in the scored candidate list — and the output is
the truncation to K, where K defaults from configuration when
non-positive and is capped at the hard ceiling 100. -/
theorem search_score_fusion (exp : ℚ → ℚ) (nsOK : Str → Bool) (cfg : Config)
    (store : Str → Str → Str → Int → ℚ → List Candidate)
    (inp : SearchInput) (now : ℚ) (rs : List SearchResult)
    (hk : 1 ≤ cfg.defaultSearchK)
    (h : Search exp nsOK cfg store inp now = .ok rs) :
    (∀ r ∈ rs,
        r.score = 0.60 * r.lexicalScore + 0.25 * r.recencyScore + 0.15 * r.importanceScore
        ∧ r.recencyScore = recencyScore exp now r.record.createdAt
        ∧ r.importanceScore = (r.record.importance : ℚ) / 5
        ∧ (now - r.record.createdAt ≤ 0 → r.recencyScore = 1))
    ∧ rs.Pairwise (fun a b => b.score ≤ a.score)
    ∧ clampK cfg inp.k = min (if inp.k ≤ 0 then cfg.defaultSearchK else inp.k) 100
    ∧ rs.length = min (clampK cfg inp.k).toNat
        (store inp.ns inp.query (trimSpace (toLowerStr inp.scope))
          (clampK cfg inp.k * 3) now).length
    ∧ ∀ c : ℚ,
        ((rs.filter (fun r => decide (r.score = c))).map (fun r => r.record.id)) <+:
          ((((store inp.ns inp.query (trimSpace (toLowerStr inp.scope))
              (clampK cfg inp.k * 3) now).map (scoreCandidate exp now)).filter
            (fun r => decide (r.score = c))).map (fun r => r.record.id)) := by
  have hclamp : clampK cfg inp.k = min (if inp.k ≤ 0 then cfg.defaultSearchK else inp.k) 100 := by
    unfold clampK
    simp only
    rcases lt_or_le (100 : Int) (if inp.k ≤ 0 then cfg.defaultSearchK else inp.k) with hc | hc
    · rw [if_pos hc]
      exact (min_eq_right hc.le).symm
    · rw [if_neg (not_lt.mpr hc)]
      exact (min_eq_left hc).symm
  have hk1 : 1 ≤ clampK cfg inp.k := by
    rw [hclamp, le_min_iff]
    constructor
    · split
      · exact hk
      · rename_i h0
        omega
    · norm_num
  unfold Search at h
  cases hv : validateNamespace nsOK inp.ns with
  | error e =>
    rw [hv] at h
    exact absurd h (by simp)
  | ok u =>
    rw [hv] at h
    simp only at h
    split at h
    · exact absurd h (by simp)
    · rw [Except.ok.injEq] at h
      have hcore := search_core exp now
        (store inp.ns inp.query (trimSpace (toLowerStr inp.scope)) (clampK cfg inp.k * 3) now)
        (clampK cfg inp.k) hk1 inp.includeMetadata rs h.symm
      exact ⟨hcore.1, hcore.2.1, hclamp, hcore.2.2.1, hcore.2.2.2⟩

/-- Concrete search input for the ranking witness (K defaulted). -/
def wSearchIn : SearchInput :=
  { ns := str "a/b", query := [], scope := [], k := 0, includeMetadata := false }

/-- The concrete ranked results. -/
def wSearchOut : List SearchResult :=
  match Search wExpZero (fun _ => true) wCfg wPackStore wSearchIn 0 with
  | .ok rs => rs
  | .error _ => []

set_option maxRecDepth 20000 in
/-- Witness: the ranking contract evaluated on a concrete two-candidate
search with equal scores (exercising the stable tie order). -/
theorem search_score_fusion_witness :
    (1 ≤ wCfg.defaultSearchK
    ∧ Search wExpZero (fun _ => true) wCfg wPackStore wSearchIn 0 = .ok wSearchOut)
    ∧ ((∀ r ∈ wSearchOut,
        r.score = 0.60 * r.lexicalScore + 0.25 * r.recencyScore + 0.15 * r.importanceScore
        ∧ r.recencyScore = recencyScore wExpZero 0 r.record.createdAt
        ∧ r.importanceScore = (r.record.importance : ℚ) / 5
        ∧ (0 - r.record.createdAt ≤ 0 → r.recencyScore = 1))
    ∧ wSearchOut.Pairwise (fun a b => b.score ≤ a.score)
    ∧ clampK wCfg wSearchIn.k = min (if wSearchIn.k ≤ 0 then wCfg.defaultSearchK else wSearchIn.k) 100
    ∧ wSearchOut.length = min (clampK wCfg wSearchIn.k).toNat
        (wPackStore wSearchIn.ns wSearchIn.query (trimSpace (toLowerStr wSearchIn.scope))
          (clampK wCfg wSearchIn.k * 3) 0).length
    ∧ ∀ c : ℚ,
        ((wSearchOut.filter (fun r => decide (r.score = c))).map (fun r => r.record.id)) <+:
          ((((wPackStore wSearchIn.ns wSearchIn.query (trimSpace (toLowerStr wSearchIn.scope))
              (clampK wCfg wSearchIn.k * 3) 0).map (scoreCandidate wExpZero 0)).filter
            (fun r => decide (r.score = c))).map (fun r => r.record.id))) :=
  ⟨⟨by decide, by with_unfolding_all decide⟩,
   search_score_fusion wExpZero (fun _ => true) wCfg wPackStore wSearchIn 0 wSearchOut
     (by decide) (by with_unfolding_all decide)⟩

/-- BINARY TEXT order is total. -/
theorem textLe_total (a b : Str) : textLe a b = true ∨ textLe b a = true := by
  unfold textLe
  rcases le_total (a.map Char.toNat) (b.map Char.toNat) with h | h
  · exact Or.inl (decide_eq_true h)
  · exact Or.inr (decide_eq_true h)

/-- BINARY TEXT order is transitive. -/
theorem textLe_trans {a b c : Str} (h1 : textLe a b = true) (h2 : textLe b c = true) :
    textLe a c = true := by
  unfold textLe at h1 h2 ⊢
  exact decide_eq_true (le_trans (of_decide_eq_true h1) (of_decide_eq_true h2))

/-- Code point of Char.ofNat at a valid code point. -/
theorem char_toNat_ofNat (m : Nat) (h : m.isValidChar) : (Char.ofNat m).toNat = m := by
  unfold Char.ofNat
  rw [dif_pos h]
  unfold Char.ofNatAux Char.toNat
  rfl

/-- ASCII case folding never turns an alphanumeric character into a
LIKE wildcard. -/
theorem toLower_ne_wild (c : Char) (hc : c.isAlphanum = true) :
    c.toLower ≠ '%' ∧ c.toLower ≠ '_' := by
  unfold Char.toLower
  simp only
  by_cases h : c.toNat ≥ 65 ∧ c.toNat ≤ 90
  · rw [if_pos h]
    have hv : (c.toNat + 32).isValidChar := by
      unfold Nat.isValidChar
      left
      omega
    have ht := char_toNat_ofNat (c.toNat + 32) hv
    constructor
    · intro heq
      rw [heq] at ht
      have h37 : ('%' : Char).toNat = 37 := by decide
      rw [h37] at ht
      omega
    · intro heq
      rw [heq] at ht
      have h95 : ('_' : Char).toNat = 95 := by decide
      rw [h95] at ht
      omega
  · rw [if_neg h]
    unfold Char.isAlphanum Char.isAlpha Char.isUpper Char.isLower Char.isDigit at hc
    constructor
    · intro heq
      rw [heq] at hc
      simp at hc
    · intro heq
      rw [heq] at hc
      simp at hc

/-- ASCII case folding maps no character onto a wildcard other than
the wildcard itself. -/
theorem toLower_wild_fix (d : Char) :
    (d.toLower = '%' → d = '%') ∧ (d.toLower = '_' → d = '_') := by
  unfold Char.toLower
  simp only
  by_cases h : d.toNat ≥ 65 ∧ d.toNat ≤ 90
  · rw [if_pos h]
    have hv : (d.toNat + 32).isValidChar := by
      unfold Nat.isValidChar
      left
      omega
    have ht := char_toNat_ofNat (d.toNat + 32) hv
    constructor
    · intro heq
      rw [heq] at ht
      have h37 : ('%' : Char).toNat = 37 := by decide
      rw [h37] at ht
      exfalso
      omega
    · intro heq
      rw [heq] at ht
      have h95 : ('_' : Char).toNat = 95 := by decide
      rw [h95] at ht
      exfalso
      omega
  · rw [if_neg h]
    exact ⟨fun he => he, fun he => he⟩

/-- flushTerm only appends the current alphanumeric run. -/
theorem flushTerm_chars (P : Char → Prop) (cur : Str) (terms : List Str)
    (hcur : ∀ d ∈ cur, P d) (hterms : ∀ t ∈ terms, ∀ d ∈ t, P d) :
    ∀ t ∈ flushTerm cur terms, ∀ d ∈ t, P d := by
  intro t ht
  unfold flushTerm at ht
  split at ht
  · exact hterms t ht
  · split at ht
    · exact hterms t ht
    · rcases List.mem_append.mp ht with h1 | h1
      · exact hterms t h1
      · rw [List.mem_singleton] at h1
        subst h1
        exact hcur

/-- Every character of every token produced by the tokenizer loop is
the ASCII-lowered form of some alphanumeric character. -/
theorem tokenizeAux_chars :
    ∀ (s cur : Str) (terms : List Str),
      (∀ d ∈ cur, ∃ c : Char, c.isAlphanum = true ∧ d = c.toLower) →
      (∀ t ∈ terms, ∀ d ∈ t, ∃ c : Char, c.isAlphanum = true ∧ d = c.toLower) →
      ∀ t ∈ tokenizeAux s cur terms, ∀ d ∈ t, ∃ c : Char, c.isAlphanum = true ∧ d = c.toLower := by
  intro s
  induction s with
  | nil =>
    intro cur terms hcur hterms
    exact flushTerm_chars _ cur terms hcur hterms
  | cons a rest ih =>
    intro cur terms hcur hterms
    unfold tokenizeAux
    by_cases ha : a.isAlphanum = true
    · rw [if_pos ha]
      apply ih
      · intro d hd
        rcases List.mem_append.mp hd with h1 | h1
        · exact hcur d h1
        · rw [List.mem_singleton] at h1
          exact ⟨a, ha, h1⟩
      · exact hterms
    · rw [if_neg ha]
      exact ih [] (flushTerm cur terms)
        (fun d hd => absurd hd (List.not_mem_nil d))
        (flushTerm_chars _ cur terms hcur hterms)

/-- No tokenizer output contains a LIKE wildcard, even after the
second case folding applied during LIKE evaluation. -/
theorem tokenize_no_wildcards (q : Str) :
    ∀ t ∈ tokenizeQueryTerms q, ∀ d ∈ toLowerStr t, d ≠ '%' ∧ d ≠ '_' := by
  intro t ht d hd
  rw [toLowerStr, List.mem_map] at hd
  obtain ⟨d0, hd0, hlow⟩ := hd
  have horig : ∃ c : Char, c.isAlphanum = true ∧ d0 = c.toLower := by
    unfold tokenizeQueryTerms at ht
    simp only at ht
    split at ht
    · exact absurd ht (List.not_mem_nil t)
    · exact tokenizeAux_chars _ [] []
        (fun x hx => absurd hx (List.not_mem_nil x))
        (fun x hx => absurd hx (List.not_mem_nil x)) t ht d0 hd0
  obtain ⟨c, hc, hde⟩ := horig
  have hne := toLower_ne_wild c hc
  subst hde
  subst hlow
  constructor
  · intro hp
    exact hne.1 ((toLower_wild_fix c.toLower).1 hp)
  · intro hp
    exact hne.2 ((toLower_wild_fix c.toLower).2 hp)

/-- A pattern consisting of a single `%` accepts every string. -/
theorem anySuffix_nil_pat : ∀ s : Str, anySuffix (likeAux []) s = true := by
  intro s
  induction s with
  | nil => rfl
  | cons c ts ih =>
    unfold anySuffix
    rw [ih, Bool.or_true]

/-- anySuffix is pointwise-extensional. -/
theorem anySuffix_ext (f g : Str → Bool) (h : ∀ s, f s = g s) :
    ∀ s, anySuffix f s = anySuffix g s := by
  intro s
  induction s with
  | nil => exact h []
  | cons c ts ih =>
    unfold anySuffix
    rw [h (c :: ts), ih]

/-- anySuffix of a prefix test is substring containment. -/
theorem anySuffix_infixOf (u : Str) :
    ∀ s : Str, anySuffix (fun s => List.isPrefixOf u s) s = infixOf u s := by
  intro s
  induction s with
  | nil =>
    show List.isPrefixOf u [] = infixOf u []
    cases u <;> rfl
  | cons c ts ih =>
    unfold anySuffix infixOf
    rw [ih]

/-- Matching a wildcard-free literal followed by `%` is a prefix test. -/
theorem likeAux_literal :
    ∀ (u : Str), (∀ c ∈ u, c ≠ '%' ∧ c ≠ '_') →
      ∀ s, likeAux (u ++ ['%']) s = List.isPrefixOf u s := by
  intro u
  induction u with
  | nil =>
    intro _ s
    show likeAux ['%'] s = _
    unfold likeAux
    rw [if_pos rfl, anySuffix_nil_pat s]
    cases s <;> rfl
  | cons a u ih =>
    intro hu s
    have ha := hu a (List.mem_cons_self a u)
    show likeAux (a :: (u ++ ['%'])) s = _
    unfold likeAux
    rw [if_neg ha.1, if_neg ha.2]
    cases s with
    | nil => rfl
    | cons c ts =>
      show (decide (a = c) && likeAux (u ++ ['%']) ts) = List.isPrefixOf (a :: u) (c :: ts)
      rw [ih (fun x hx => hu x (List.mem_cons_of_mem a hx)) ts]
      have hbeq : (a == c) = decide (a = c) := by
        by_cases h : a = c <;> simp [h]
      rw [show List.isPrefixOf (a :: u) (c :: ts) = ((a == c) && List.isPrefixOf u ts) from rfl,
        hbeq]

/-- For a wildcard-free needle, `text LIKE '%needle%'` is exactly
ASCII-case-insensitive substring containment. -/
theorem sqlLike_wildcard_free (t s : Str)
    (ht : ∀ c ∈ toLowerStr t, c ≠ '%' ∧ c ≠ '_') :
    sqlLike (str "%" ++ t ++ str "%") s = infixOf (toLowerStr t) (toLowerStr s) := by
  unfold sqlLike
  have hfold : toLowerStr (str "%" ++ t ++ str "%") = '%' :: (toLowerStr t ++ ['%']) := by
    unfold toLowerStr
    rw [List.map_append, List.map_append]
    rfl
  rw [hfold]
  show likeAux ('%' :: (toLowerStr t ++ ['%'])) (toLowerStr s) = _
  unfold likeAux
  rw [if_pos rfl]
  rw [anySuffix_ext _ _ (likeAux_literal (toLowerStr t) ht)]
  exact anySuffix_infixOf (toLowerStr t) (toLowerStr s)

/-- Unwrapping the candidate constructor recovers the row list. -/
theorem map_row_wrap (q : ℚ) (l : List StoredRow) :
    (l.map (fun r => ({ row := r, lexicalScore := q } : RowCandidate))).map
      (fun c => c.row) = l := by
  induction l with
  | nil => rfl
  | cons a t ih =>
    simp only [List.map_cons]
    rw [ih]

/-- Membership in the searchLIKE output certifies the WHERE clause and
the fixed lexical score. -/
theorem searchLIKE_mem (table : List StoredRow) (ns query : Str) (terms : List Str)
    (scope : Str) (limit : Int) (nowText : Str) (c : RowCandidate)
    (hc : c ∈ SQLiteStore.searchLIKE table ns query terms scope limit nowText) :
    c.row ∈ table
    ∧ SQLiteStore.rowWhere ns scope nowText c.row = true
    ∧ SQLiteStore.likeWhere query terms c.row = true
    ∧ c.lexicalScore = (if query ≠ [] then 0.4 else 0.25) := by
  unfold SQLiteStore.searchLIKE at hc
  rw [List.mem_map] at hc
  obtain ⟨r, hr, rfl⟩ := hc
  have hr2 : r ∈ (table.filter
      (fun r => SQLiteStore.rowWhere ns scope nowText r
        && SQLiteStore.likeWhere query terms r)).insertionSort SQLiteStore.createdTextGE :=
    List.mem_of_mem_take hr
  rw [(List.perm_insertionSort SQLiteStore.createdTextGE _).mem_iff, List.mem_filter] at hr2
  obtain ⟨hmem, hpred⟩ := hr2
  rw [Bool.and_eq_true] at hpred
  exact ⟨hmem, hpred.1, hpred.2, rfl⟩

-- Test: quick sanity examples for the whole model
example : sqlLike (str "%_%") (str "x") = true := by decide
example : sqlLike (str "%db%") (str "xDBy") = true := by decide
example : textLe (str "2026-01-02T03:04:00.52Z") (str "2026-01-02T03:04:00.5Z") = true := by
  decide

/-- Failing row for the expiry sweep: its expiry lies 0.52 s into the
second, which in BINARY TEXT order compares below the sweep time 0.5 s
into the same second. -/
def wBugRow : StoredRow :=
  { id := str "m1"
    ns := str "a/b"
    scope := str "short"
    content := str "c"
    summary := []
    importance := 3
    sourceAgent := []
    metadataJSON := []
    createdAt := str "2026-01-02T03:04:00Z"
    lastAccessedAt := str "2026-01-02T03:04:00Z"
    expiresAt := some (str "2026-01-02T03:04:00.52Z")
    promotedAt := none }

/-- The sweep time of the expiry counterexample. -/
def wSweepNowText : Str := str "2026-01-02T03:04:00.5Z"

set_option maxRecDepth 20000 in
/-- C3: the sweep must delete exactly the rows with expiresAt at or
before T, but the DELETE compares RFC3339Nano TEXT under BINARY
collation, and Go trims trailing fractional zeros, so that order
disagrees with time order: at T = ...00.5Z the sweep deletes a row
whose expiry ...00.52Z lies strictly after T (both strings are
well-formed RFC3339Nano UTC outputs). -/
theorem expireShort_text_order_bug :
    SQLiteStore.ExpireShort [wBugRow] wSweepNowText = ([], 1)
    ∧ timeLtRFC wSweepNowText ((wBugRow.expiresAt).getD []) = true
    ∧ timeLtRFC ((wBugRow.expiresAt).getD []) wSweepNowText = false
    ∧ rfc3339NanoUTCWF wSweepNowText = true
    ∧ rfc3339NanoUTCWF ((wBugRow.expiresAt).getD []) = true
    ∧ textLe ((wBugRow.expiresAt).getD []) wSweepNowText = true := by
  with_unfolding_all decide

/-- Row whose content is upper-case `DB`, created 0.52 s into the
second. -/
def wRowDB : StoredRow :=
  { id := str "x1"
    ns := str "n"
    scope := str "short"
    content := str "DB"
    summary := []
    importance := 3
    sourceAgent := []
    metadataJSON := []
    createdAt := str "2026-01-02T03:04:00.52Z"
    lastAccessedAt := str "2026-01-02T03:04:00.52Z"
    expiresAt := none
    promotedAt := none }

/-- Row whose content is `x`, created 0.5 s into the second. -/
def wRowX : StoredRow :=
  { id := str "x2"
    ns := str "n"
    scope := str "short"
    content := str "x"
    summary := []
    importance := 3
    sourceAgent := []
    metadataJSON := []
    createdAt := str "2026-01-02T03:04:00.5Z"
    lastAccessedAt := str "2026-01-02T03:04:00.5Z"
    expiresAt := none
    promotedAt := none }

set_option maxRecDepth 20000 in
/-- C7 counterexample: the fallback substring tests are SQL LIKE, not
literal containment: (a) the tokenized query `db` matches upper-case
content `DB` though `db` is not a substring of it; (b) a token-free
query is pasted into the pattern unescaped, so the query `_` matches
the one-character content `x` though `_` occurs nowhere in it; (c) the
ordering is by the stored created_at TEXT, which puts the
chronologically newer ...00.52Z row after the ...00.5Z one. -/
theorem like_fallback_counterexample :
    (tokenizeQueryTerms (str "db") = [str "db"]
      ∧ SQLiteStore.SearchCandidates false (.error ()) [wRowDB] (str "n") (str "db") [] 10
          wSweepNowText = [{ row := wRowDB, lexicalScore := 0.4 }]
      ∧ infixOf (str "db") wRowDB.content = false
      ∧ infixOf (str "db") wRowDB.summary = false)
    ∧ (tokenizeQueryTerms (str "_") = []
      ∧ SQLiteStore.SearchCandidates false (.error ()) [wRowX] (str "n") (str "_") [] 10
          wSweepNowText = [{ row := wRowX, lexicalScore := 0.4 }]
      ∧ infixOf (str "_") wRowX.content = false
      ∧ infixOf (str "_") wRowX.summary = false)
    ∧ (SQLiteStore.SearchCandidates false (.error ()) [wRowDB, wRowX] (str "n") [] [] 10
          wSweepNowText
        = [{ row := wRowX, lexicalScore := 0.25 }, { row := wRowDB, lexicalScore := 0.25 }]
      ∧ timeLtRFC wRowX.createdAt wRowDB.createdAt = true) := by
  with_unfolding_all decide

/-- C7 (amended): under any of the three fallback conditions the
search is exactly searchLIKE on the trimmed query; every returned
candidate is a table row passing the namespace/expiry/scope filter,
each token appears ASCII-case-insensitively in its content or summary
(tokens carry no wildcards), a token-free non-empty query matches as a
LIKE pattern with its wildcards active, the lexical score is 0.4 for a
non-empty query and 0.25 otherwise, and results are ordered by the
stored created_at text descending. -/
theorem search_fallback_amended (ftsEnabled : Bool) (fts : Except Unit (List RowCandidate))
    (table : List StoredRow) (ns query scope : Str) (limit : Int) (nowText : Str)
    (hfb : ftsEnabled = false ∨ tokenizeQueryTerms (trimSpace query) = [] ∨ fts = .ok []) :
    SQLiteStore.SearchCandidates ftsEnabled fts table ns query scope limit nowText
      = SQLiteStore.searchLIKE table ns (trimSpace query)
          (tokenizeQueryTerms (trimSpace query)) scope (if limit ≤ 0 then 10 else limit) nowText
    ∧ (∀ c ∈ SQLiteStore.SearchCandidates ftsEnabled fts table ns query scope limit nowText,
        c.row ∈ table
        ∧ SQLiteStore.rowWhere ns scope nowText c.row = true
        ∧ (tokenizeQueryTerms (trimSpace query) ≠ [] →
            ∀ t ∈ tokenizeQueryTerms (trimSpace query),
              infixOf (toLowerStr t) (toLowerStr c.row.content) = true
              ∨ infixOf (toLowerStr t) (toLowerStr c.row.summary) = true)
        ∧ (tokenizeQueryTerms (trimSpace query) = [] → trimSpace query ≠ [] →
            sqlLike (str "%" ++ trimSpace query ++ str "%") c.row.content = true
            ∨ sqlLike (str "%" ++ trimSpace query ++ str "%") c.row.summary = true)
        ∧ c.lexicalScore = (if trimSpace query ≠ [] then 0.4 else 0.25))
    ∧ ((SQLiteStore.SearchCandidates ftsEnabled fts table ns query scope limit nowText).map
        (fun c => c.row)).Pairwise SQLiteStore.createdTextGE := by
  have hout : SQLiteStore.SearchCandidates ftsEnabled fts table ns query scope limit nowText
      = SQLiteStore.searchLIKE table ns (trimSpace query)
          (tokenizeQueryTerms (trimSpace query)) scope (if limit ≤ 0 then 10 else limit)
          nowText := by
    unfold SQLiteStore.SearchCandidates
    by_cases hc : tokenizeQueryTerms (trimSpace query) ≠ [] ∧ ftsEnabled = true
    · rw [if_pos hc]
      rcases hfb with h | h | h
      · rw [h] at hc
        exact absurd hc.2 Bool.false_ne_true
      · exact absurd h hc.1
      · rw [h]
        simp
    · rw [if_neg hc]
  refine ⟨hout, ?_, ?_⟩
  · intro c hcmem
    rw [hout] at hcmem
    obtain ⟨hmem, hrow, hlike, hscore⟩ := searchLIKE_mem table ns (trimSpace query)
      (tokenizeQueryTerms (trimSpace query)) scope (if limit ≤ 0 then 10 else limit)
      nowText c hcmem
    refine ⟨hmem, hrow, ?_, ?_, hscore⟩
    · intro hterms t ht
      unfold SQLiteStore.likeWhere at hlike
      rw [if_pos hterms, List.all_eq_true] at hlike
      have hx := hlike t ht
      rw [Bool.or_eq_true] at hx
      have hwf := tokenize_no_wildcards (trimSpace query) t ht
      rcases hx with hx | hx
      · rw [sqlLike_wildcard_free t c.row.content hwf] at hx
        exact Or.inl hx
      · rw [sqlLike_wildcard_free t c.row.summary hwf] at hx
        exact Or.inr hx
    · intro h0 hq
      unfold SQLiteStore.likeWhere at hlike
      rw [if_neg (fun hne => hne h0), if_pos hq, Bool.or_eq_true] at hlike
      exact hlike
  · rw [hout]
    unfold SQLiteStore.searchLIKE
    rw [map_row_wrap]
    haveI : IsTotal StoredRow SQLiteStore.createdTextGE :=
      ⟨fun a b => textLe_total b.createdAt a.createdAt⟩
    haveI : IsTrans StoredRow SQLiteStore.createdTextGE :=
      ⟨fun a b c h1 h2 => textLe_trans h2 h1⟩
    exact List.Pairwise.sublist (List.take_sublist _ _)
      (List.sorted_insertionSort SQLiteStore.createdTextGE _)

set_option maxRecDepth 20000 in
/-- Witness: the amended fallback theorem applied to a one-row table
with FTS disabled and the query `db`. -/
theorem search_fallback_amended_witness :
    (SQLiteStore.SearchCandidates false (.error ()) [wRowDB] (str "n") (str "db") [] 10
        wSweepNowText
      = SQLiteStore.searchLIKE [wRowDB] (str "n") (trimSpace (str "db"))
          (tokenizeQueryTerms (trimSpace (str "db"))) []
          (if (10 : Int) ≤ 0 then 10 else 10) wSweepNowText)
    ∧ (∀ c ∈ SQLiteStore.SearchCandidates false (.error ()) [wRowDB] (str "n") (str "db") [] 10
          wSweepNowText,
        c.row ∈ [wRowDB]
        ∧ SQLiteStore.rowWhere (str "n") [] wSweepNowText c.row = true
        ∧ (tokenizeQueryTerms (trimSpace (str "db")) ≠ [] →
            ∀ t ∈ tokenizeQueryTerms (trimSpace (str "db")),
              infixOf (toLowerStr t) (toLowerStr c.row.content) = true
              ∨ infixOf (toLowerStr t) (toLowerStr c.row.summary) = true)
        ∧ (tokenizeQueryTerms (trimSpace (str "db")) = [] → trimSpace (str "db") ≠ [] →
            sqlLike (str "%" ++ trimSpace (str "db") ++ str "%") c.row.content = true
            ∨ sqlLike (str "%" ++ trimSpace (str "db") ++ str "%") c.row.summary = true)
        ∧ c.lexicalScore = (if trimSpace (str "db") ≠ [] then 0.4 else 0.25))
    ∧ ((SQLiteStore.SearchCandidates false (.error ()) [wRowDB] (str "n") (str "db") [] 10
          wSweepNowText).map (fun c => c.row)).Pairwise SQLiteStore.createdTextGE :=
  search_fallback_amended false (.error ()) [wRowDB] (str "n") (str "db") [] 10 wSweepNowText
    (Or.inl rfl)

end MemoryMCP
